import Mathlib

/-!
# gst-imageprocessing: the pixel transforms of `src/gstimageprocessing.c`

A shallow embedding of `half_tone`, `hist_equalization` and
`gst_image_processing_transform`, and the properties of them that the specification states.

Modelling conventions.

* A pixel buffer (`guchar *`) is a `List Nat`; the error arrays `eg` and `ep` (`float **`) are
  lists of rows. Every array access is checked: a read or a write outside its array makes the
  function return `none`, so `some` results are runs without any out-of-range access.
* `for (i = 0; i < n; i++)` is `forLoop n`.
* The `float` arithmetic of `half_tone` is a parameter (`FloatOps`): the carrier, the
  operations, the conversion from `int` and the three non-zero kernel literals. What is proved
  of `half_tone` for every `FloatOps` holds whatever the arithmetic is. The arithmetic the code
  runs with is `binary32`: IEEE 754 single precision with signed zeros, infinities and NaN,
  every operation rounded on its own to nearest, ties to even (no fused multiply-add and no
  excess precision).
* The `double` arithmetic of `hist_equalization` is binary64 with round-to-nearest-even, on the
  finite non-negative values that occur there (`Double`); a non-finite value is `none`.
  The store of a `double` into a `guchar` keeps the low eight bits of the truncated value; the
  byte stored for a non-finite value is a parameter (`nanByte`).
* `guint`/`int` index arithmetic is done in `Nat`/`Int`: the frames considered are small enough
  for `rows * cols` not to wrap.  The histogram counters are `guchar` and do wrap: they are
  kept modulo 256, as the code does.
-/

set_option linter.constructorNameAsVariable false
set_option maxRecDepth 100000

namespace ImageProcessing

/-! ## Loops and checked memory -/

/-- The loop `for (i = 0; i < n; i++) body`, threading a state; a failing body fails the
loop. -/
def forLoop {σ : Type} (n : Nat) (body : Nat → σ → Option σ) (s : σ) : Option σ :=
  match n with
  | 0 => some s
  | k + 1 => (forLoop k body s).bind (body k)

/-- Checked store `buf[i] = v` into a byte buffer. -/
def writeByte (buf : List Nat) (i v : Nat) : Option (List Nat) :=
  if i < buf.length then some (buf.set i v) else none

/-- Checked read `g[x][y]` of a two-dimensional array. -/
def read2 {F : Type} (g : List (List F)) (x y : Nat) : Option F :=
  (g[x]?).bind (fun row => row[y]?)

/-- Checked store `g[x][y] = v` into a two-dimensional array. -/
def write2 {F : Type} (g : List (List F)) (x y : Nat) (v : F) : Option (List (List F)) :=
  match g[x]? with
  | none => none
  | some row => if y < row.length then some (g.set x (row.set y v)) else none

/-- Checked read `g[xx][yy]` with `int` indices: a negative index is out of range. -/
def readAt {F : Type} (g : List (List F)) (xx yy : Int) : Option F :=
  if xx < 0 ∨ yy < 0 then none else read2 g xx.toNat yy.toNat

/-- The call `memcpy(dst, src, n)`: the first `n` bytes of `dst` become those of `src`. -/
def memcpy (dst src : List Nat) (n : Nat) : Option (List Nat) :=
  if n ≤ dst.length ∧ n ≤ src.length then some (src.take n ++ dst.drop n) else none

/-- The call `memset(buf + off, v, n)`: `n` bytes from offset `off` become `v`. -/
def memset (buf : List Nat) (off v n : Nat) : Option (List Nat) :=
  if off + n ≤ buf.length then some (buf.take off ++ List.replicate n v ++ buf.drop (off + n))
  else none

/-! ## `half_tone` -/

/-- The `float` arithmetic `half_tone` computes with. -/
structure FloatOps (F : Type) where
  /-- The literal `0.0`. -/
  zero : F
  /-- The literal `0.2` as a `float`. -/
  w02 : F
  /-- The literal `0.6` as a `float`. -/
  w06 : F
  /-- The literal `0.1` as a `float`. -/
  w01 : F
  /-- Conversion of an `int` to `float`. -/
  ofInt : Int → F
  add : F → F → F
  sub : F → F → F
  mul : F → F → F
  /-- The comparison `a > b`. -/
  gt : F → F → Bool

/-- The kernel `c[2][3]` as `half_tone` fills it in. -/
def kernel {F : Type} (A : FloatOps F) : List (List F) :=
  [[A.zero, A.w02, A.zero], [A.w06, A.w01, A.w01]]

/-- The two clamps `if (v < 0) v = 0; if (v >= n) v = n - 1;`. The comparison with the
unsigned bound `n` is made on a value the first clamp has made non-negative. -/
def clamp (v : Int) (n : Nat) : Int :=
  let v1 := if v < 0 then 0 else v
  if v1 ≥ (n : Int) then (n : Int) - 1 else v1

/-- The row index `xx` sampled for kernel row `i` at pixel row `m`. -/
def sampleRow (rows m i : Nat) : Int := clamp ((m : Int) - (i : Int) + 1) rows

/-- The column index `yy` sampled for kernel column `j` at pixel column `n`. -/
def sampleCol (cols n j : Nat) : Int := clamp ((n : Int) - (j : Int) + 1) cols

/-- The two inner loops of `half_tone`: the weighted sum `sum_p` at pixel `(m, n)`. -/
def sum_p_loop {F : Type} (A : FloatOps F) (eg : List (List F)) (rows cols m n : Nat) :
    Option F :=
  forLoop 2 (fun i acc => forLoop 3 (fun j sum_p => do
    let xx := sampleRow rows m i
    let yy := sampleCol cols n j
    let cij ← read2 (kernel A) i j
    let e ← readAt eg xx yy
    pure (A.add sum_p (A.mul cij e))) acc) A.zero

/-- The arrays `half_tone` works on. -/
structure HalfToneState (F : Type) where
  eg : List (List F)
  ep : List (List F)
  out_image : List Nat

/-- The body of the pixel loop of `half_tone` at `(m, n)`. -/
def half_tone_pixel {F : Type} (A : FloatOps F) (in_image : List Nat)
    (threshold one zero rows cols m n : Nat) (s : HalfToneState F) :
    Option (HalfToneState F) := do
  let sum_p ← sum_p_loop A s.eg rows cols m n
  let ep ← write2 s.ep m n sum_p
  let px ← in_image[m * cols + n]?
  let epmn ← read2 ep m n
  let t := A.add (A.ofInt (px : Int)) epmn
  if A.gt t (A.ofInt (threshold : Int)) then do
    let eg ← write2 s.eg m n (A.sub t (A.ofInt ((threshold : Int) * 2)))
    let out ← writeByte s.out_image (m * cols + n) one
    pure ⟨eg, ep, out⟩
  else do
    let eg ← write2 s.eg m n t
    let out ← writeByte s.out_image (m * cols + n) zero
    pure ⟨eg, ep, out⟩

/-- The arrays at the end of `half_tone`: `eg` and `ep` are allocated `rows` by `cols` and
zeroed, then the pixels are processed row by row. -/
def half_tone_run {F : Type} (A : FloatOps F) (in_image out_image : List Nat)
    (threshold one zero rows cols : Nat) : Option (HalfToneState F) :=
  forLoop rows (fun m s => forLoop cols (fun n s1 =>
    half_tone_pixel A in_image threshold one zero rows cols m n s1) s)
    ⟨List.replicate rows (List.replicate cols A.zero),
     List.replicate rows (List.replicate cols A.zero), out_image⟩

/-- The function `half_tone`: the output buffer it leaves. -/
def half_tone {F : Type} (A : FloatOps F) (in_image out_image : List Nat)
    (threshold one zero rows cols : Nat) : Option (List Nat) :=
  (half_tone_run A in_image out_image threshold one zero rows cols).map
    HalfToneState.out_image

/-! ## The floating-point formats -/

/-- A finite non-negative binary64 value, `m * 2 ^ e`. -/
structure Double where
  m : Nat
  e : Int
deriving DecidableEq, Repr

/-- The position of the highest set bit of `n`, found in at most `fuel` halvings. -/
def highBit (fuel n : Nat) : Nat :=
  match fuel with
  | 0 => 0
  | f + 1 => if n < 2 then 0 else highBit f (n / 2) + 1

/-- The quotient `a / b` (`0 < b`) rounded to a 53-bit significand, ties to even. -/
def roundNearestEven (a b : Nat) : Double :=
  if a = 0 then ⟨0, 0⟩ else
  let e0 : Int := (highBit a a : Int) - (highBit b b : Int)
  let ex : Int := if b * 2 ^ e0.toNat ≤ a * 2 ^ (-e0).toNat then e0 else e0 - 1
  let k : Int := 52 - ex
  let num := a * 2 ^ k.toNat
  let den := b * 2 ^ (-k).toNat
  let q := num / den
  let r := num % den
  if den < 2 * r ∨ (2 * r = den ∧ q % 2 = 1) then ⟨q + 1, -k⟩ else ⟨q, -k⟩

/-- A binary32 value: a finite value `(-1) ^ neg * mag * 2 ^ (-149)`, an infinity, or a
NaN. The unit `2 ^ (-149)` is the smallest subnormal, so every finite binary32 value is a
whole number of units. -/
inductive F32 where
  | finite (neg : Bool) (mag : Nat)
  | inf (neg : Bool)
  | nan
deriving DecidableEq, Repr

/-- The quotient `num / den`, counted in units of `2 ^ (-149)`, rounded to the nearest
binary32 magnitude, ties to even: below `2 ^ 24` units the spacing is one unit, above it
the low bits beyond a 24-bit significand are rounded away. -/
def round24 (num den : Nat) : Nat :=
  let s := highBit (num / den) (num / den) - 23
  let d := den * 2 ^ s
  let n := num / d
  let r := num % d
  if d < 2 * r ∨ (2 * r = d ∧ n % 2 = 1) then (n + 1) * 2 ^ s else n * 2 ^ s

/-- The binary32 value of sign `neg` nearest to `num / den` units; a rounded magnitude of
`2 ^ 128` or more overflows to infinity. -/
def pack (neg : Bool) (num den : Nat) : F32 :=
  if round24 num den < 2 ^ 128 * 2 ^ 149 then F32.finite neg (round24 num den) else F32.inf neg

/-- Negation: the sign is flipped. -/
def F32.neg (x : F32) : F32 :=
  match x with
  | F32.finite s a => F32.finite (!s) a
  | F32.inf s => F32.inf (!s)
  | F32.nan => F32.nan

/-- Addition: the exact sum, rounded; an exact zero sum of operands of opposite sign is
`+0.0`. -/
def F32.add (x y : F32) : F32 :=
  match x, y with
  | F32.finite sa a, F32.finite sb b =>
    if sa = sb then pack sa (a + b) 1
    else if a = b then F32.finite false 0
    else if b < a then pack sa (a - b) 1
    else pack sb (b - a) 1
  | F32.finite _ _, F32.inf sb => F32.inf sb
  | F32.inf sa, F32.finite _ _ => F32.inf sa
  | F32.inf sa, F32.inf sb => if sa = sb then F32.inf sa else F32.nan
  | F32.nan, _ => F32.nan
  | _, F32.nan => F32.nan

/-- Subtraction `x - y`, which is `x + (-y)`. -/
def F32.sub (x y : F32) : F32 := F32.add x (F32.neg y)

/-- Multiplication: the exact product, rounded; the sign is the exclusive or of the signs,
also for a zero product. -/
def F32.mul (x y : F32) : F32 :=
  match x, y with
  | F32.finite sa a, F32.finite sb b => pack (sa != sb) (a * b) (2 ^ 149)
  | F32.finite sa a, F32.inf sb => if a = 0 then F32.nan else F32.inf (sa != sb)
  | F32.inf sa, F32.finite sb b => if b = 0 then F32.nan else F32.inf (sa != sb)
  | F32.inf sa, F32.inf sb => F32.inf (sa != sb)
  | F32.nan, _ => F32.nan
  | _, F32.nan => F32.nan

/-- Conversion of an `int` to `float`. -/
def F32.ofInt (z : Int) : F32 := pack (decide (z < 0)) (z.natAbs * 2 ^ 149) 1

/-- The comparison `x > y`: false when an operand is NaN, and `+0.0` and `-0.0` compare
equal. -/
def F32.gt (x y : F32) : Bool :=
  match x, y with
  | F32.finite sa a, F32.finite sb b =>
    match sa, sb with
    | false, false => decide (b < a)
    | false, true => decide (0 < a ∨ 0 < b)
    | true, false => false
    | true, true => decide (a < b)
  | F32.finite _ _, F32.inf sb => sb
  | F32.inf sa, F32.finite _ _ => !sa
  | F32.inf sa, F32.inf sb => !sa && sb
  | F32.nan, _ => false
  | _, F32.nan => false

/-- Conversion of a `double` to `float`, as in the assignment of a `double` literal to a
`float` variable. -/
def F32.ofDouble (d : Double) : F32 :=
  pack false (d.m * 2 ^ (d.e + 149).toNat) (2 ^ (-(d.e + 149)).toNat)

/-- The arithmetic `half_tone` runs with: binary32, and the kernel literals `0.2`, `0.6` and
`0.1` as the `double` literals they are, converted to `float`. -/
def binary32 : FloatOps F32 where
  zero := F32.finite false 0
  w02 := F32.ofDouble (roundNearestEven 2 10)
  w06 := F32.ofDouble (roundNearestEven 6 10)
  w01 := F32.ofDouble (roundNearestEven 1 10)
  ofInt := F32.ofInt
  add := F32.add
  sub := F32.sub
  mul := F32.mul
  gt := F32.gt

/-! ## `hist_equalization` -/

/-- The division `256.f / (double) total`; `none` is the non-finite result for `total = 0`. -/
def scale_constant (total : Nat) : Option Double :=
  if total = 0 then none else some (roundNearestEven 256 total)

/-- The product `count * constant` in `double`; non-finite when `constant` is. -/
def scaled (count : Nat) (constant : Option Double) : Option Double :=
  constant.map (fun c => roundNearestEven (count * c.m * 2 ^ c.e.toNat) (2 ^ (-c.e).toNat))

/-- The store of a `double` into a `guchar`: the value is truncated and its low eight bits
are kept; `nanByte` is what the target stores for a non-finite value. -/
def store_guchar (nanByte : Nat) (v : Option Double) : Nat :=
  match v with
  | none => nanByte
  | some d => (d.m * 2 ^ d.e.toNat / 2 ^ (-d.e).toNat) % 256

/-- The first loop of `hist_equalization`: the `guchar` histogram, counted modulo 256. -/
def calc_histogram (in_image : List Nat) (rows cols : Nat) : Option (List Nat) :=
  forLoop rows (fun m h => forLoop cols (fun n histogram => do
    let v ← in_image[m * cols + n]?
    let count ← histogram[v]?
    pure (histogram.set v ((count + 1) % 256))) h) (List.replicate 256 0)

/-- The second loop of `hist_equalization`: the running sum and the table `histogram_sum`. -/
def calc_histogram_sum (histogram : List Nat) : Option (Nat × List Nat) :=
  forLoop 256 (fun m st => do
    let hm ← histogram[m]?
    let sum := st.1 + hm
    if m < st.2.length then pure (sum, st.2.set m sum) else none) (0, List.replicate 256 0)

/-- The function `hist_equalization`: the output buffer it leaves. -/
def hist_equalization (nanByte : Nat) (in_image out_image : List Nat) (rows cols : Nat) :
    Option (List Nat) := do
  let histogram ← calc_histogram in_image rows cols
  let st ← calc_histogram_sum histogram
  let histogram_sum := st.2
  let total ← histogram_sum[255]?
  let constant := scale_constant total
  forLoop rows (fun m o => forLoop cols (fun n out => do
    let v ← in_image[m * cols + n]?
    let count ← histogram_sum[v]?
    writeByte out (m * cols + n) (store_guchar nanByte (scaled count constant))) o) out_image

/-! ## `gst_image_processing_transform` -/

/-- The fields of `GstImageProcessing` the transform reads. -/
structure Filter where
  grayscale : Bool
  halftone : Bool
  histeq : Bool
  width : Nat
  height : Nat

/-- The luma dispatch of `gst_image_processing_transform`. -/
def luma_pass {F : Type} (A : FloatOps F) (nanByte : Nat) (filter : Filter)
    (inmap outmap : List Nat) : Option (List Nat) :=
  if filter.halftone = true then
    half_tone A inmap outmap 128 255 0 filter.height filter.width
  else if filter.histeq = true then
    hist_equalization nanByte inmap outmap filter.height filter.width
  else
    memcpy outmap inmap inmap.length

/-- The chroma step of `gst_image_processing_transform`; `size` is `inmap.size`. -/
def chroma_pass (filter : Filter) (size : Nat) (outmap : List Nat) : Option (List Nat) :=
  if filter.grayscale = true ∨ filter.halftone = true ∨ filter.histeq = true then
    memset outmap (size * 2 / 3) 128 (size / 3)
  else some outmap

/-- The function `gst_image_processing_transform` on the mapped buffers: the output buffer
it leaves. -/
def gst_image_processing_transform {F : Type} (A : FloatOps F) (nanByte : Nat)
    (filter : Filter) (inmap outmap : List Nat) : Option (List Nat) :=
  (luma_pass A nanByte filter inmap outmap).bind (chroma_pass filter inmap.length)


/-! ## Auxiliary definitions for the proofs -/

/-- An array of `rows` rows of `cols` entries each. -/
def Shape {F : Type} (g : List (List F)) (rows cols : Nat) : Prop :=
  g.length = rows ∧ ∀ r, r < rows → ∃ row, g[r]? = some row ∧ row.length = cols

/-- The index `k + 1`, clamped to the last valid index. -/
def nextIdx (bound k : Nat) : Nat := if k + 1 < bound then k + 1 else bound - 1

/-- The weighted sum of six sampled values, in the order the loops add them. -/
def weighted {F : Type} (A : FloatOps F) (e00 e01 e02 e10 e11 e12 : F) : F :=
  A.add (A.add (A.add (A.add (A.add (A.add A.zero (A.mul A.zero e00)) (A.mul A.w02 e01))
    (A.mul A.zero e02)) (A.mul A.w06 e10)) (A.mul A.w01 e11)) (A.mul A.w01 e12)

/-- The new accumulated error `eg[m][n]` for the working value `t`. -/
def settle {F : Type} (A : FloatOps F) (threshold : Nat) (t : F) : F :=
  if A.gt t (A.ofInt (threshold : Int)) = true then A.sub t (A.ofInt ((threshold : Int) * 2))
  else t

/-- The output byte for the working value `t`. -/
def level {F : Type} (A : FloatOps F) (threshold one zero : Nat) (t : F) : Nat :=
  if A.gt t (A.ofInt (threshold : Int)) = true then one else zero

/-- The input sample at row `r`, column `c`. -/
def pixel (in_image : List Nat) (cols r c : Nat) : Nat := (in_image[r * cols + c]?).getD 0

/-- The sum `sum_p` at a pixel whose left neighbour holds the error `prev` (`0.0` in column
0); `last` says whether the pixel is in the last row, where the clamped row below is the
row itself. -/
def sumFrom {F : Type} (A : FloatOps F) (last : Bool) (prev : F) : F :=
  weighted A A.zero A.zero (if last = true then prev else A.zero) A.zero A.zero prev

/-- The error left of column `n` in a row with samples `px`: `0.0` for `n = 0`, else the
error stored at column `n - 1`. -/
def prevErr {F : Type} (A : FloatOps F) (px : Nat → Nat) (threshold : Nat) (last : Bool) :
    Nat → F
  | 0 => A.zero
  | n + 1 => settle A threshold
      (A.add (A.ofInt ((px n : Nat) : Int)) (sumFrom A last (prevErr A px threshold last n)))

/-- The value `ep[r][c]` of the run. -/
def sumAt {F : Type} (A : FloatOps F) (in_image : List Nat) (threshold rows cols r c : Nat) :
    F :=
  sumFrom A (decide (r + 1 = rows)) (prevErr A (pixel in_image cols r) threshold
    (decide (r + 1 = rows)) c)

/-- The working value `t` at `(r, c)`. -/
def workAt {F : Type} (A : FloatOps F) (in_image : List Nat) (threshold rows cols r c : Nat) :
    F :=
  A.add (A.ofInt ((pixel in_image cols r c : Nat) : Int)) (sumAt A in_image threshold rows cols r c)

/-- The value `eg[r][c]` of the run once `(r, c)` is processed. -/
def errAt {F : Type} (A : FloatOps F) (in_image : List Nat) (threshold rows cols r c : Nat) :
    F :=
  settle A threshold (workAt A in_image threshold rows cols r c)

/-- The byte `out_image[r * cols + c]` of the run. -/
def outAt {F : Type} (A : FloatOps F) (in_image : List Nat) (threshold one zero rows cols r c : Nat) :
    Nat :=
  level A threshold one zero (workAt A in_image threshold rows cols r c)

/-- The state of `half_tone` when the pixels before `(m, n)` in row-major order have been
processed and no other. -/
def RunInv {F : Type} (A : FloatOps F) (in_image out0 : List Nat)
    (threshold one zero rows cols m n : Nat) (s : HalfToneState F) : Prop :=
  Shape s.eg rows cols ∧ Shape s.ep rows cols ∧ s.out_image.length = out0.length ∧
  (∀ r c, r < rows → c < cols → read2 s.eg r c =
    some (if r < m ∨ (r = m ∧ c < n) then errAt A in_image threshold rows cols r c
      else A.zero)) ∧
  (∀ r c, r < rows → c < cols → (r < m ∨ (r = m ∧ c < n)) →
    read2 s.ep r c = some (sumAt A in_image threshold rows cols r c) ∧
    s.out_image[r * cols + c]? = some (outAt A in_image threshold one zero rows cols r c)) ∧
  (∀ p, rows * cols ≤ p → s.out_image[p]? = out0[p]?)

/-- An upper bound on what rounding makes of a magnitude of at most `q` units: the relative
error of a 24-bit significand is below `2 ^ (-23)`, the absolute error on the subnormal grid
below one unit. -/
def grow (q : Nat) : Nat := q + q / 8388608 + 1

/-- The value `x` is finite, of magnitude at most `B` units. -/
def MagBound (x : F32) (B : Nat) : Prop := ∃ s m, x = F32.finite s m ∧ m ≤ B

/-- The comparison `x == y` of two binary32 values: NaN equals nothing and the two zeros
are equal. -/
def F32.eq (x y : F32) : Bool :=
  match x, y with
  | F32.finite sa a, F32.finite sb b => (a == 0 && b == 0) || (sa == sb && a == b)
  | F32.inf sa, F32.inf sb => sa == sb
  | _, _ => false

/-! ## Loop rules -/

/-- Invariant rule for `forLoop`: an invariant indexed by the loop counter that every
iteration re-establishes holds at the end, and the loop does not fail. -/
theorem forLoop_inv {σ : Type} (P : Nat → σ → Prop) (n : Nat) (body : Nat → σ → Option σ)
    (s0 : σ) (h0 : P 0 s0)
    (hstep : ∀ k s, k < n → P k s → ∃ s1, body k s = some s1 ∧ P (k + 1) s1) :
    ∃ s1, forLoop n body s0 = some s1 ∧ P n s1 := by
  induction n with
  | zero => exact ⟨s0, rfl, h0⟩
  | succ k ih =>
    obtain ⟨s1, h1, hP1⟩ := ih (fun j s hj hP => hstep j s (Nat.lt_succ_of_lt hj) hP)
    obtain ⟨s2, h2, hP2⟩ := hstep k s1 (Nat.lt_succ_self k) hP1
    exact ⟨s2, by simp [forLoop, h1, h2], hP2⟩

/-- Invariant rule for two nested loops with an invariant that does not mention the
counters. -/
theorem forLoop2_inv {σ : Type} (P : σ → Prop) (rows cols : Nat)
    (body : Nat → Nat → σ → Option σ) (s0 : σ) (h0 : P s0)
    (hstep : ∀ m n s, m < rows → n < cols → P s → ∃ s1, body m n s = some s1 ∧ P s1) :
    ∃ s1, forLoop rows (fun m s => forLoop cols (fun n t => body m n t) s) s0 = some s1
      ∧ P s1 := by
  apply forLoop_inv (fun _ s => P s) rows _ s0 h0
  intro m s hm hP
  exact forLoop_inv (fun _ t => P t) cols _ s hP (fun n t hn hPt => hstep m n t hm hn hPt)

/-- Row-major indices stay inside the plane. -/
theorem index_lt {rows cols m n : Nat} (hm : m < rows) (hn : n < cols) :
    m * cols + n < rows * cols := by
  have h1 : (m + 1) * cols ≤ rows * cols := Nat.mul_le_mul_right cols hm
  have h2 : (m + 1) * cols = m * cols + cols := by ring
  omega

/-- Row-major indexing is injective on the plane. -/
theorem index_inj {cols r c m n : Nat} (hc : c < cols) (hn : n < cols)
    (h : r * cols + c = m * cols + n) : r = m ∧ c = n := by
  have hr : r = m := by
    rcases Nat.lt_trichotomy r m with hlt | heq | hgt
    · have h1 : (r + 1) * cols ≤ m * cols := Nat.mul_le_mul_right cols hlt
      have h2 : (r + 1) * cols = r * cols + cols := by ring
      omega
    · exact heq
    · have h1 : (m + 1) * cols ≤ r * cols := Nat.mul_le_mul_right cols hgt
      have h2 : (m + 1) * cols = m * cols + cols := by ring
      omega
  subst hr
  exact ⟨rfl, by omega⟩

/-! ## Two-dimensional arrays -/

theorem shape_replicate {F : Type} (z : F) (rows cols : Nat) :
    Shape (List.replicate rows (List.replicate cols z)) rows cols := by
  refine ⟨by simp, fun r hr => ⟨List.replicate cols z, ?_, by simp⟩⟩
  simp [List.getElem?_replicate, hr]

theorem read2_replicate {F : Type} (z : F) {rows cols r c : Nat} (hr : r < rows)
    (hc : c < cols) : read2 (List.replicate rows (List.replicate cols z)) r c = some z := by
  simp [read2, List.getElem?_replicate, hr, hc]

theorem read2_of_shape {F : Type} {g : List (List F)} {rows cols x y : Nat}
    (h : Shape g rows cols) (hx : x < rows) (hy : y < cols) : ∃ v, read2 g x y = some v := by
  obtain ⟨row, hrow, hlen⟩ := h.2 x hx
  have hy1 : y < row.length := by omega
  exact ⟨row[y], by simp [read2, hrow, List.getElem?_eq_getElem hy1]⟩

/-- A store inside the array succeeds, keeps the shape and changes exactly one entry. -/
theorem write2_spec {F : Type} {g : List (List F)} {rows cols x y : Nat} (v : F)
    (h : Shape g rows cols) (hx : x < rows) (hy : y < cols) :
    ∃ g1, write2 g x y v = some g1 ∧ Shape g1 rows cols ∧
      ∀ r c, read2 g1 r c = if r = x ∧ c = y then some v else read2 g r c := by
  obtain ⟨row, hrow, hlen⟩ := h.2 x hx
  have hy1 : y < row.length := by omega
  have hxl : x < g.length := by rw [h.1]; exact hx
  refine ⟨g.set x (row.set y v), by simp [write2, hrow, hy1], ⟨?_, ?_⟩, ?_⟩
  · simp [h.1]
  · intro r hr
    by_cases hrx : x = r
    · subst hrx
      exact ⟨row.set y v, by simp [List.getElem?_set, hxl], by simp [hlen]⟩
    · obtain ⟨row1, hrow1, hlen1⟩ := h.2 r hr
      exact ⟨row1, by simp [List.getElem?_set, hrx, hrow1], hlen1⟩
  · intro r c
    by_cases hrx : x = r
    · subst hrx
      by_cases hcy : y = c
      · subst hcy
        simp [read2, List.getElem?_set, hxl, hy1]
      · have hcy1 : ¬ c = y := fun hh => hcy hh.symm
        simp [read2, List.getElem?_set, hxl, hcy, hcy1, hrow]
    · have hrx1 : ¬ r = x := fun hh => hrx hh.symm
      simp [read2, List.getElem?_set, hrx, hrx1]

/-! ## The pixel step of `half_tone` -/

theorem sampleRow_zero {rows m : Nat} (hm : m < rows) :
    sampleRow rows m 0 = ((nextIdx rows m : Nat) : Int) := by
  unfold sampleRow clamp nextIdx
  simp only []
  split_ifs <;> omega

theorem sampleRow_one {rows m : Nat} (hm : m < rows) : sampleRow rows m 1 = ((m : Nat) : Int) := by
  unfold sampleRow clamp
  simp only []
  split_ifs <;> omega

theorem sampleCol_zero {cols n : Nat} (hn : n < cols) :
    sampleCol cols n 0 = ((nextIdx cols n : Nat) : Int) := by
  unfold sampleCol clamp nextIdx
  simp only []
  split_ifs <;> omega

theorem sampleCol_one {cols n : Nat} (hn : n < cols) : sampleCol cols n 1 = ((n : Nat) : Int) := by
  unfold sampleCol clamp
  simp only []
  split_ifs <;> omega

theorem sampleCol_two {cols n : Nat} (hn : n < cols) :
    sampleCol cols n 2 = ((n - 1 : Nat) : Int) := by
  unfold sampleCol clamp
  simp only []
  split_ifs <;> omega

theorem nextIdx_lt {bound k : Nat} (hk : k < bound) : nextIdx bound k < bound := by
  unfold nextIdx
  split_ifs <;> omega

theorem readAt_cast {F : Type} (g : List (List F)) (x y : Nat) :
    readAt g ((x : Nat) : Int) ((y : Nat) : Int) = read2 g x y := by
  simp [readAt]

theorem sum_p_loop_eq {F : Type} (A : FloatOps F) (eg : List (List F)) {rows cols m n : Nat}
    (hm : m < rows) (hn : n < cols) {e00 e01 e02 e10 e11 e12 : F}
    (h00 : read2 eg (nextIdx rows m) (nextIdx cols n) = some e00)
    (h01 : read2 eg (nextIdx rows m) n = some e01)
    (h02 : read2 eg (nextIdx rows m) (n - 1) = some e02)
    (h10 : read2 eg m (nextIdx cols n) = some e10)
    (h11 : read2 eg m n = some e11)
    (h12 : read2 eg m (n - 1) = some e12) :
    sum_p_loop A eg rows cols m n = some (weighted A e00 e01 e02 e10 e11 e12) := by
  have r0 := sampleRow_zero hm
  have r1 := sampleRow_one hm
  have c0 := sampleCol_zero hn
  have c1 := sampleCol_one hn
  have c2 := sampleCol_two hn
  have k00 : read2 (kernel A) 0 0 = some A.zero := rfl
  have k01 : read2 (kernel A) 0 1 = some A.w02 := rfl
  have k02 : read2 (kernel A) 0 2 = some A.zero := rfl
  have k10 : read2 (kernel A) 1 0 = some A.w06 := rfl
  have k11 : read2 (kernel A) 1 1 = some A.w01 := rfl
  have k12 : read2 (kernel A) 1 2 = some A.w01 := rfl
  simp only [sum_p_loop, forLoop, Option.bind_eq_bind, Option.some_bind, Option.pure_def,
    r0, r1, c0, c1, c2, readAt_cast, h00, h01, h02, h10, h11, h12, k00, k01, k02, k10, k11,
    k12, weighted, Nat.zero_add]

/-- One pixel of `half_tone`: with arrays of the right shape it succeeds, stores the sum in
`ep[m][n]`, the settled error in `eg[m][n]`, one of the two levels in the output, and
changes nothing else. -/
theorem half_tone_pixel_spec {F : Type} (A : FloatOps F) (in_image : List Nat)
    (threshold one zero : Nat) {rows cols m n : Nat} (s : HalfToneState F)
    (hm : m < rows) (hn : n < cols)
    (hsg : Shape s.eg rows cols) (hsp : Shape s.ep rows cols)
    {px : Nat} (hpx : in_image[m * cols + n]? = some px)
    (hout : m * cols + n < s.out_image.length)
    {e00 e01 e02 e10 e11 e12 : F}
    (h00 : read2 s.eg (nextIdx rows m) (nextIdx cols n) = some e00)
    (h01 : read2 s.eg (nextIdx rows m) n = some e01)
    (h02 : read2 s.eg (nextIdx rows m) (n - 1) = some e02)
    (h10 : read2 s.eg m (nextIdx cols n) = some e10)
    (h11 : read2 s.eg m n = some e11)
    (h12 : read2 s.eg m (n - 1) = some e12) :
    ∃ s1, half_tone_pixel A in_image threshold one zero rows cols m n s = some s1 ∧
      Shape s1.eg rows cols ∧ Shape s1.ep rows cols ∧
      s1.out_image = s.out_image.set (m * cols + n)
        (level A threshold one zero
          (A.add (A.ofInt (px : Int)) (weighted A e00 e01 e02 e10 e11 e12))) ∧
      (∀ r c, read2 s1.eg r c = if r = m ∧ c = n then
          some (settle A threshold
            (A.add (A.ofInt (px : Int)) (weighted A e00 e01 e02 e10 e11 e12)))
        else read2 s.eg r c) ∧
      (∀ r c, read2 s1.ep r c = if r = m ∧ c = n then
          some (weighted A e00 e01 e02 e10 e11 e12) else read2 s.ep r c) := by
  have hsum := sum_p_loop_eq A s.eg hm hn h00 h01 h02 h10 h11 h12
  obtain ⟨ep1, hep1, hsp1, hrp1⟩ :=
    write2_spec (weighted A e00 e01 e02 e10 e11 e12) hsp hm hn
  have hback : read2 ep1 m n = some (weighted A e00 e01 e02 e10 e11 e12) := by
    rw [hrp1]; simp
  by_cases hgt : A.gt (A.add (A.ofInt (px : Int)) (weighted A e00 e01 e02 e10 e11 e12))
      (A.ofInt (threshold : Int)) = true
  · obtain ⟨eg1, heg1, hsg1, hrg1⟩ :=
      write2_spec (A.sub (A.add (A.ofInt (px : Int)) (weighted A e00 e01 e02 e10 e11 e12))
        (A.ofInt ((threshold : Int) * 2))) hsg hm hn
    refine ⟨⟨eg1, ep1, s.out_image.set (m * cols + n) one⟩, ?_, hsg1, hsp1, ?_, ?_, hrp1⟩
    · simp [half_tone_pixel, hsum, hep1, hpx, hback, hgt, heg1, writeByte, hout]
    · simp [level, hgt]
    · intro r c
      rw [hrg1]
      simp [settle, hgt]
  · obtain ⟨eg1, heg1, hsg1, hrg1⟩ :=
      write2_spec (A.add (A.ofInt (px : Int)) (weighted A e00 e01 e02 e10 e11 e12)) hsg hm hn
    refine ⟨⟨eg1, ep1, s.out_image.set (m * cols + n) zero⟩, ?_, hsg1, hsp1, ?_, ?_, hrp1⟩
    · simp [half_tone_pixel, hsum, hep1, hpx, hback, hgt, heg1, writeByte, hout]
    · simp [level, hgt]
    · intro r c
      rw [hrg1]
      simp [settle, hgt]

/-! ## What `half_tone` computes, pixel by pixel -/

theorem prevErr_succ {F : Type} (A : FloatOps F) (in_image : List Nat)
    (threshold rows cols r c : Nat) :
    prevErr A (pixel in_image cols r) threshold (decide (r + 1 = rows)) (c + 1) =
      errAt A in_image threshold rows cols r c := rfl

theorem runInv_init {F : Type} (A : FloatOps F) (in_image out0 : List Nat)
    (threshold one zero rows cols : Nat) :
    RunInv A in_image out0 threshold one zero rows cols 0 0
      ⟨List.replicate rows (List.replicate cols A.zero),
       List.replicate rows (List.replicate cols A.zero), out0⟩ := by
  refine ⟨shape_replicate _ _ _, shape_replicate _ _ _, rfl, ?_, ?_, fun p _ => rfl⟩
  · intro r c hr hc
    simp [read2_replicate A.zero hr hc]
  · intro r c _ _ h
    omega

theorem runInv_next_row {F : Type} (A : FloatOps F) (in_image out0 : List Nat)
    (threshold one zero rows cols m : Nat) (s : HalfToneState F)
    (h : RunInv A in_image out0 threshold one zero rows cols m cols s) :
    RunInv A in_image out0 threshold one zero rows cols (m + 1) 0 s := by
  obtain ⟨h1, h2, h3, h4, h5, h6⟩ := h
  refine ⟨h1, h2, h3, ?_, ?_, h6⟩
  · intro r c hr hc
    rw [h4 r c hr hc]
    have : (r < m ∨ (r = m ∧ c < cols)) ↔ (r < m + 1 ∨ (r = m + 1 ∧ c < 0)) := by omega
    simp only [this]
  · intro r c hr hc hv
    exact h5 r c hr hc (by omega)

theorem runInv_step {F : Type} (A : FloatOps F) (in_image out0 : List Nat)
    (threshold one zero rows cols m n : Nat) (s : HalfToneState F)
    (hin : rows * cols ≤ in_image.length) (hout : rows * cols ≤ out0.length)
    (hm : m < rows) (hn : n < cols)
    (h : RunInv A in_image out0 threshold one zero rows cols m n s) :
    ∃ s1, half_tone_pixel A in_image threshold one zero rows cols m n s = some s1 ∧
      RunInv A in_image out0 threshold one zero rows cols m (n + 1) s1 := by
  obtain ⟨h1, h2, h3, h4, h5, h6⟩ := h
  have hidx := index_lt hm hn
  have hpx : in_image[m * cols + n]? = some (pixel in_image cols m n) := by
    have hlt : m * cols + n < in_image.length := by omega
    simp [pixel, List.getElem?_eq_getElem hlt]
  have hx0 := nextIdx_lt hm
  have hy0 := nextIdx_lt hn
  have hy2 : n - 1 < cols := by omega
  have hprev : (if n - 1 < n then errAt A in_image threshold rows cols m (n - 1) else A.zero)
      = prevErr A (pixel in_image cols m) threshold (decide (m + 1 = rows)) n := by
    cases n with
    | zero => simp [prevErr]
    | succ k => simp [prevErr_succ]
  have g00 : read2 s.eg (nextIdx rows m) (nextIdx cols n) = some A.zero := by
    have hv : ¬ (nextIdx rows m < m ∨ (nextIdx rows m = m ∧ nextIdx cols n < n)) := by
      unfold nextIdx; split_ifs <;> omega
    rw [h4 _ _ hx0 hy0, if_neg hv]
  have g01 : read2 s.eg (nextIdx rows m) n = some A.zero := by
    have hv : ¬ (nextIdx rows m < m ∨ (nextIdx rows m = m ∧ n < n)) := by
      unfold nextIdx; split_ifs <;> omega
    rw [h4 _ _ hx0 hn, if_neg hv]
  have g12 : read2 s.eg m (n - 1) =
      some (prevErr A (pixel in_image cols m) threshold (decide (m + 1 = rows)) n) := by
    rw [h4 _ _ hm hy2]
    by_cases hn0 : n - 1 < n
    · rw [if_pos (Or.inr ⟨rfl, hn0⟩)]
      rw [if_pos hn0] at hprev
      rw [hprev]
    · have hv : ¬ (m < m ∨ (m = m ∧ n - 1 < n)) := by omega
      rw [if_neg hv]
      rw [if_neg hn0] at hprev
      rw [hprev]
  have g02 : read2 s.eg (nextIdx rows m) (n - 1) =
      some (if decide (m + 1 = rows) = true then
        prevErr A (pixel in_image cols m) threshold (decide (m + 1 = rows)) n else A.zero) := by
    by_cases hl : m + 1 = rows
    · have hx : nextIdx rows m = m := by unfold nextIdx; split_ifs <;> omega
      rw [hx, g12]
      simp [hl]
    · have hv : ¬ (nextIdx rows m < m ∨ (nextIdx rows m = m ∧ n - 1 < n)) := by
        unfold nextIdx; split_ifs <;> omega
      rw [h4 _ _ hx0 hy2, if_neg hv]
      simp [hl]
  have g10 : read2 s.eg m (nextIdx cols n) = some A.zero := by
    have hv : ¬ (m < m ∨ (m = m ∧ nextIdx cols n < n)) := by
      unfold nextIdx; split_ifs <;> omega
    rw [h4 _ _ hm hy0, if_neg hv]
  have g11 : read2 s.eg m n = some A.zero := by
    have hv : ¬ (m < m ∨ (m = m ∧ n < n)) := by omega
    rw [h4 _ _ hm hn, if_neg hv]
  obtain ⟨s1, hs1, k1, k2, k3, k4, k5⟩ :=
    half_tone_pixel_spec A in_image threshold one zero s hm hn h1 h2 hpx (by omega)
      g00 g01 g02 g10 g11 g12
  have hw : weighted A A.zero A.zero
      (if decide (m + 1 = rows) = true then
        prevErr A (pixel in_image cols m) threshold (decide (m + 1 = rows)) n else A.zero)
      A.zero A.zero (prevErr A (pixel in_image cols m) threshold (decide (m + 1 = rows)) n)
      = sumAt A in_image threshold rows cols m n := rfl
  rw [hw] at k3 k4 k5
  refine ⟨s1, hs1, k1, k2, by rw [k3, List.length_set, h3], ?_, ?_, ?_⟩
  · intro r c hr hc
    rw [k4 r c]
    by_cases hrc : r = m ∧ c = n
    · obtain ⟨rfl, rfl⟩ := hrc
      simp [errAt, workAt]
    · rw [if_neg hrc, h4 r c hr hc]
      have : (r < m ∨ (r = m ∧ c < n)) ↔ (r < m ∨ (r = m ∧ c < n + 1)) := by omega
      simp only [this]
  · intro r c hr hc hv
    by_cases hrc : r = m ∧ c = n
    · obtain ⟨rfl, rfl⟩ := hrc
      refine ⟨by rw [k5]; simp, ?_⟩
      rw [k3, List.getElem?_set]
      have : r * cols + c < s.out_image.length := by omega
      simp [this, outAt, workAt]
    · have hv1 : r < m ∨ (r = m ∧ c < n) := by omega
      obtain ⟨q1, q2⟩ := h5 r c hr hc hv1
      refine ⟨by rw [k5, if_neg hrc, q1], ?_⟩
      rw [k3, List.getElem?_set]
      have hne : ¬ m * cols + n = r * cols + c := by
        intro he
        obtain ⟨e1, e2⟩ := index_inj hc hn he.symm
        exact hrc ⟨e1, e2⟩
      rw [if_neg hne, q2]
  · intro p hp
    rw [k3, List.getElem?_set]
    have hne : ¬ m * cols + n = p := by omega
    rw [if_neg hne, h6 p hp]

/-- The run of `half_tone` on a plane that fits its buffers succeeds, and ends with every
pixel processed. -/
theorem half_tone_run_spec {F : Type} (A : FloatOps F) (in_image out_image : List Nat)
    (threshold one zero rows cols : Nat)
    (hin : rows * cols ≤ in_image.length) (hout : rows * cols ≤ out_image.length) :
    ∃ s, half_tone_run A in_image out_image threshold one zero rows cols = some s ∧
      RunInv A in_image out_image threshold one zero rows cols rows 0 s := by
  unfold half_tone_run
  apply forLoop_inv
    (fun m s => RunInv A in_image out_image threshold one zero rows cols m 0 s)
  · exact runInv_init A in_image out_image threshold one zero rows cols
  · intro m s hm hs
    obtain ⟨s1, h1, hP⟩ := forLoop_inv
      (fun n t => RunInv A in_image out_image threshold one zero rows cols m n t) cols
      (fun n t => half_tone_pixel A in_image threshold one zero rows cols m n t) s hs
      (fun n t hn ht =>
        runInv_step A in_image out_image threshold one zero rows cols m n t hin hout hm hn ht)
    exact ⟨s1, h1, runInv_next_row A in_image out_image threshold one zero rows cols m s1 hP⟩

/-- Every index of the plane is the row-major index of a pixel. -/
theorem index_split {rows cols p : Nat} (hp : p < rows * cols) :
    p / cols < rows ∧ p % cols < cols ∧ p / cols * cols + p % cols = p := by
  have hc : 0 < cols := by
    rcases Nat.eq_zero_or_pos cols with h | h
    · subst h; simp at hp
    · exact h
  refine ⟨(Nat.div_lt_iff_lt_mul hc).2 hp, Nat.mod_lt _ hc, ?_⟩
  rw [Nat.mul_comm]
  exact Nat.div_add_mod p cols

/-- The output of `half_tone`: it exists, has the length of the buffer handed in, holds the
level chosen at each pixel of the plane, and is the old buffer past the plane. -/
theorem half_tone_spec {F : Type} (A : FloatOps F) (in_image out_image : List Nat)
    (threshold one zero rows cols : Nat)
    (hin : rows * cols ≤ in_image.length) (hout : rows * cols ≤ out_image.length) :
    ∃ o, half_tone A in_image out_image threshold one zero rows cols = some o ∧
      o.length = out_image.length ∧
      (∀ r c, r < rows → c < cols →
        o[r * cols + c]? = some (outAt A in_image threshold one zero rows cols r c)) ∧
      (∀ p, rows * cols ≤ p → o[p]? = out_image[p]?) := by
  obtain ⟨s, hs, -, -, h3, -, h5, h6⟩ :=
    half_tone_run_spec A in_image out_image threshold one zero rows cols hin hout
  refine ⟨s.out_image, by simp [half_tone, hs], h3, ?_, h6⟩
  intro r c hr hc
  exact (h5 r c hr hc (Or.inl hr)).2

theorem level_cases {F : Type} (A : FloatOps F) (threshold one zero : Nat) (t : F) :
    level A threshold one zero t = one ∨ level A threshold one zero t = zero := by
  unfold level
  split_ifs
  · exact Or.inl rfl
  · exact Or.inr rfl

/-! ## `hist_equalization` runs to the end -/

theorem sample_lt {in_image : List Nat} (hbytes : ∀ b ∈ in_image, b < 256) {p v : Nat}
    (hv : in_image[p]? = some v) : v < 256 := by
  obtain ⟨hp, hpv⟩ := List.getElem?_eq_some.1 hv
  exact hbytes v (hpv ▸ List.getElem_mem hp)

theorem calc_histogram_length (in_image : List Nat) (rows cols : Nat)
    (hin : rows * cols ≤ in_image.length) (hbytes : ∀ b ∈ in_image, b < 256) :
    ∃ h, calc_histogram in_image rows cols = some h ∧ h.length = 256 := by
  unfold calc_histogram
  apply forLoop2_inv (fun h : List Nat => h.length = 256) rows cols
    (fun m n histogram => do
      let v ← in_image[m * cols + n]?
      let count ← histogram[v]?
      pure (histogram.set v ((count + 1) % 256)))
  · exact List.length_replicate 256 0
  · intro m n h hm hn hlen
    have hidx := index_lt hm hn
    have hlt : m * cols + n < in_image.length := by omega
    have hv : in_image[m * cols + n]? = some in_image[m * cols + n] :=
      List.getElem?_eq_getElem hlt
    have hv256 := sample_lt hbytes hv
    have hcount : in_image[m * cols + n] < h.length := by omega
    exact ⟨h.set in_image[m * cols + n] ((h[in_image[m * cols + n]] + 1) % 256),
      by simp [hv, List.getElem?_eq_getElem hcount], by simp [hlen]⟩

theorem calc_histogram_sum_length (histogram : List Nat) (hlen : histogram.length = 256) :
    ∃ st, calc_histogram_sum histogram = some st ∧ st.2.length = 256 := by
  unfold calc_histogram_sum
  apply forLoop_inv (fun _ (st : Nat × List Nat) => st.2.length = 256)
  · exact List.length_replicate 256 0
  · intro m st hm hst
    have hlt : m < histogram.length := by omega
    have hlt2 : m < st.2.length := by omega
    exact ⟨(st.1 + histogram[m], st.2.set m (st.1 + histogram[m])),
      by simp [List.getElem?_eq_getElem hlt, hlt2], by simp [hst]⟩

/-- On a plane of bytes that fits its buffers `hist_equalization` succeeds and leaves a
buffer of the length handed in. -/
theorem hist_equalization_total (nanByte : Nat) (in_image out_image : List Nat)
    (rows cols : Nat) (hin : rows * cols ≤ in_image.length)
    (hout : rows * cols ≤ out_image.length) (hbytes : ∀ b ∈ in_image, b < 256) :
    ∃ o, hist_equalization nanByte in_image out_image rows cols = some o ∧
      o.length = out_image.length := by
  obtain ⟨h, hh, hhlen⟩ := calc_histogram_length in_image rows cols hin hbytes
  obtain ⟨st, hst, hstlen⟩ := calc_histogram_sum_length h hhlen
  have h255 : (255 : Nat) < st.2.length := by omega
  obtain ⟨o, ho, holen⟩ := forLoop2_inv (fun o => o.length = out_image.length) rows cols
    (fun m n out => do
      let v ← in_image[m * cols + n]?
      let count ← st.2[v]?
      writeByte out (m * cols + n)
        (store_guchar nanByte (scaled count (scale_constant st.2[255])))) out_image rfl
    (by
      intro m n out hm hn hlen
      have hidx := index_lt hm hn
      have hlt : m * cols + n < in_image.length := by omega
      have hv : in_image[m * cols + n]? = some in_image[m * cols + n] :=
        List.getElem?_eq_getElem hlt
      have hv256 := sample_lt hbytes hv
      have hcount : in_image[m * cols + n] < st.2.length := by omega
      have hw : m * cols + n < out.length := by omega
      exact ⟨out.set (m * cols + n) (store_guchar nanByte
          (scaled st.2[in_image[m * cols + n]] (scale_constant st.2[255]))),
        by simp [hv, List.getElem?_eq_getElem hcount, writeByte, hw], by simp [hlen]⟩)
  refine ⟨o, ?_, holen⟩
  simp only [hist_equalization, hh, hst, List.getElem?_eq_getElem h255, Option.bind_eq_bind,
    Option.some_bind]
  exact ho

/-! ## `memcpy` and `memset` -/

theorem memcpy_spec (dst src : List Nat) (h : src.length ≤ dst.length) :
    memcpy dst src src.length = some (src ++ dst.drop src.length) := by
  simp [memcpy, h]

theorem memset_spec (buf : List Nat) (off v n : Nat) (h : off + n ≤ buf.length) :
    ∃ o, memset buf off v n = some o ∧ o.length = buf.length ∧
      (∀ p, p < off → o[p]? = buf[p]?) ∧
      (∀ p, off ≤ p → p < off + n → o[p]? = some v) ∧
      (∀ p, off + n ≤ p → o[p]? = buf[p]?) ∧
      o.take off = buf.take off := by
  refine ⟨buf.take off ++ List.replicate n v ++ buf.drop (off + n), by simp [memset, h],
    ?_, ?_, ?_, ?_, ?_⟩
  · simp; omega
  · intro p hp
    have h1 : p < (buf.take off ++ List.replicate n v).length := by simp; omega
    have h2 : p < (buf.take off).length := by simp; omega
    rw [List.getElem?_append_left h1, List.getElem?_append_left h2, List.getElem?_take]
    simp [hp]
  · intro p hp1 hp2
    have h1 : p < (buf.take off ++ List.replicate n v).length := by simp; omega
    have h2 : (buf.take off).length ≤ p := by simp; omega
    rw [List.getElem?_append_left h1, List.getElem?_append_right h2,
      List.getElem?_replicate]
    have h3 : (buf.take off).length = off := by simp; omega
    rw [h3, if_pos (by omega)]
  · intro p hp
    have h1 : (buf.take off ++ List.replicate n v).length ≤ p := by simp; omega
    rw [List.getElem?_append_right h1, List.getElem?_drop]
    have h3 : (buf.take off ++ List.replicate n v).length = off + n := by simp; omega
    rw [h3]
    congr 1
    omega
  · have h3 : (buf.take off).length = off := by simp; omega
    rw [List.append_assoc, List.take_append_of_le_length (by omega)]
    rw [List.take_take]
    simp

/-! ## Properties of `half_tone` -/

/-- C1: on a plane that fits its buffers `half_tone` returns, and every one of the
`rows * cols` bytes it leaves in `out_image` is `one` or `zero`, whatever the threshold, the
two levels and the floating-point arithmetic (so whatever the error values) are; the bytes
of the buffer past the plane are left as they were. -/
theorem half_tone_output_two_levels {F : Type} (A : FloatOps F)
    (in_image out_image : List Nat) (threshold one zero rows cols : Nat)
    (hin : rows * cols ≤ in_image.length) (hout : rows * cols ≤ out_image.length) :
    ∃ o, half_tone A in_image out_image threshold one zero rows cols = some o ∧
      o.length = out_image.length ∧
      (∀ p, p < rows * cols → o[p]? = some one ∨ o[p]? = some zero) ∧
      (∀ p, rows * cols ≤ p → o[p]? = out_image[p]?) := by
  obtain ⟨o, ho, hlen, hpix, hrest⟩ :=
    half_tone_spec A in_image out_image threshold one zero rows cols hin hout
  refine ⟨o, ho, hlen, ?_, hrest⟩
  intro p hp
  obtain ⟨hr, hc, hsplit⟩ := index_split hp
  have h := hpix (p / cols) (p % cols) hr hc
  rw [hsplit] at h
  rw [h]
  rcases level_cases A threshold one zero
    (workAt A in_image threshold rows cols (p / cols) (p % cols)) with h1 | h1
  · left; exact congrArg some h1
  · right; exact congrArg some h1

/-- A 2 by 2 plane in a five-byte buffer. -/
theorem half_tone_output_two_levels_witness :
    2 * 2 ≤ [200, 100, 50, 130].length ∧ 2 * 2 ≤ [7, 7, 7, 7, 9].length ∧
    ∃ o, half_tone binary32 [200, 100, 50, 130] [7, 7, 7, 7, 9] 128 255 0 2 2 = some o ∧
      o.length = [7, 7, 7, 7, 9].length ∧
      (∀ p, p < 2 * 2 → o[p]? = some 255 ∨ o[p]? = some 0) ∧
      (∀ p, 2 * 2 ≤ p → o[p]? = [7, 7, 7, 7, 9][p]?) :=
  ⟨by decide, by decide,
    half_tone_output_two_levels binary32 [200, 100, 50, 130] [7, 7, 7, 7, 9] 128 255 0 2 2
      (by decide) (by decide)⟩

/-- C8: for `rows ≥ 1`, `cols ≥ 1`, at every pixel `(m, n)` of the plane and every kernel
offset `i < 2`, `j < 3` the clamped indices satisfy `0 ≤ xx < rows` and `0 ≤ yy < cols`, the
flat index `m * cols + n` is below `rows * cols`, and the checked run of `half_tone` returns
a result: no access to `eg`, `ep`, `in_image` or `out_image` is out of range. -/
theorem half_tone_accesses_in_range {F : Type} (A : FloatOps F)
    (in_image out_image : List Nat) (threshold one zero rows cols : Nat)
    (hrows : 1 ≤ rows) (hcols : 1 ≤ cols)
    (hin : in_image.length = rows * cols) (hout : out_image.length = rows * cols) :
    (∀ m n i j, m < rows → n < cols → i < 2 → j < 3 →
      0 ≤ sampleRow rows m i ∧ sampleRow rows m i < (rows : Int) ∧
      0 ≤ sampleCol cols n j ∧ sampleCol cols n j < (cols : Int) ∧
      m * cols + n < rows * cols) ∧
    (half_tone A in_image out_image threshold one zero rows cols).isSome = true := by
  constructor
  · intro m n i j hm hn _ _
    refine ⟨?_, ?_, ?_, ?_, index_lt hm hn⟩
    · unfold sampleRow clamp; simp only []; split_ifs <;> omega
    · unfold sampleRow clamp; simp only []; split_ifs <;> omega
    · unfold sampleCol clamp; simp only []; split_ifs <;> omega
    · unfold sampleCol clamp; simp only []; split_ifs <;> omega
  · obtain ⟨o, ho, -⟩ := half_tone_spec A in_image out_image threshold one zero rows cols
      (by omega) (by omega)
    simp [ho]

/-- The 1 by 1 plane, where every neighbour index is clamped to 0. -/
theorem half_tone_accesses_in_range_witness :
    (1 ≤ 1 ∧ 1 ≤ 1 ∧ [200].length = 1 * 1 ∧ [7].length = 1 * 1) ∧
    ((∀ m n i j, m < 1 → n < 1 → i < 2 → j < 3 →
      0 ≤ sampleRow 1 m i ∧ sampleRow 1 m i < ((1 : Nat) : Int) ∧
      0 ≤ sampleCol 1 n j ∧ sampleCol 1 n j < ((1 : Nat) : Int) ∧
      m * 1 + n < 1 * 1) ∧
    (half_tone binary32 [200] [7] 128 255 0 1 1).isSome = true) :=
  ⟨by decide, half_tone_accesses_in_range binary32 [200] [7] 128 255 0 1 1
    (by decide) (by decide) (by decide) (by decide)⟩

/-! ## Properties of `gst_image_processing_transform` -/

/-- The luma dispatch on an I420 frame succeeds and keeps the buffer length. -/
theorem luma_pass_total {F : Type} (A : FloatOps F) (nanByte : Nat) (filter : Filter)
    (inmap outmap : List Nat)
    (hluma : filter.height * filter.width ≤ inmap.length)
    (hosize : outmap.length = inmap.length) (hbytes : ∀ b ∈ inmap, b < 256) :
    ∃ mid, luma_pass A nanByte filter inmap outmap = some mid ∧
      mid.length = inmap.length := by
  unfold luma_pass
  by_cases hh : filter.halftone = true
  · obtain ⟨o, ho, hlen, -⟩ := half_tone_spec A inmap outmap 128 255 0 filter.height
      filter.width hluma (by omega)
    exact ⟨o, by simp [hh, ho], by omega⟩
  · by_cases he : filter.histeq = true
    · obtain ⟨o, ho, hlen⟩ := hist_equalization_total nanByte inmap outmap filter.height
        filter.width hluma (by omega) hbytes
      exact ⟨o, by simp [hh, he, ho], by omega⟩
    · refine ⟨inmap ++ outmap.drop inmap.length, ?_, by simp; omega⟩
      simp only [hh, he, if_false]
      exact memcpy_spec outmap inmap (by omega)

/-- C3: on an I420 frame buffer of `rows * cols * 3 / 2` bytes with `rows * cols` divisible
by 4, when at least one of `grayscale`, `halftone`, `histeq` is set, the transform returns
and every output byte at an index in `[rows * cols, size)` is 128, whatever the input
chroma is; the chroma step leaves every byte below `rows * cols` as the luma step wrote
it. -/
theorem transform_chroma_neutral {F : Type} (A : FloatOps F) (nanByte : Nat)
    (filter : Filter) (inmap outmap : List Nat)
    (hflag : filter.grayscale = true ∨ filter.halftone = true ∨ filter.histeq = true)
    (hdiv : 4 ∣ filter.height * filter.width)
    (hsize : inmap.length = filter.height * filter.width * 3 / 2)
    (hosize : outmap.length = inmap.length) (hbytes : ∀ b ∈ inmap, b < 256) :
    ∃ mid o, luma_pass A nanByte filter inmap outmap = some mid ∧
      chroma_pass filter inmap.length mid = some o ∧
      gst_image_processing_transform A nanByte filter inmap outmap = some o ∧
      o.length = inmap.length ∧
      (∀ p, filter.height * filter.width ≤ p → p < inmap.length → o[p]? = some 128) ∧
      (∀ p, p < filter.height * filter.width → o[p]? = mid[p]?) := by
  obtain ⟨mid, hmid, hmlen⟩ := luma_pass_total A nanByte filter inmap outmap
    (by omega) hosize hbytes
  have hoff : inmap.length * 2 / 3 = filter.height * filter.width := by omega
  have hcnt : inmap.length * 2 / 3 + inmap.length / 3 = inmap.length := by omega
  obtain ⟨o, ho, holen, hlow, hset, -, -⟩ :=
    memset_spec mid (inmap.length * 2 / 3) 128 (inmap.length / 3) (by omega)
  have hc : chroma_pass filter inmap.length mid = some o := by
    unfold chroma_pass
    rw [if_pos hflag]
    exact ho
  refine ⟨mid, o, hmid, hc, by simp [gst_image_processing_transform, hmid, hc],
    by omega, ?_, ?_⟩
  · intro p hp1 hp2
    exact hset p (by omega) (by omega)
  · intro p hp
    exact hlow p (by omega)

/-- A 2 by 2 frame of six bytes with only `grayscale` set. -/
theorem transform_chroma_neutral_witness :
    ((true = true ∨ false = true ∨ false = true) ∧ 4 ∣ 2 * 2 ∧
      [10, 20, 30, 40, 50, 60].length = 2 * 2 * 3 / 2 ∧
      [1, 2, 3, 4, 5, 6].length = [10, 20, 30, 40, 50, 60].length ∧
      ∀ b ∈ [10, 20, 30, 40, 50, 60], b < 256) ∧
    ∃ mid o, luma_pass binary32 0 ⟨true, false, false, 2, 2⟩ [10, 20, 30, 40, 50, 60]
        [1, 2, 3, 4, 5, 6] = some mid ∧
      chroma_pass ⟨true, false, false, 2, 2⟩ [10, 20, 30, 40, 50, 60].length mid = some o ∧
      gst_image_processing_transform binary32 0 ⟨true, false, false, 2, 2⟩
        [10, 20, 30, 40, 50, 60] [1, 2, 3, 4, 5, 6] = some o ∧
      o.length = [10, 20, 30, 40, 50, 60].length ∧
      (∀ p, 2 * 2 ≤ p → p < [10, 20, 30, 40, 50, 60].length → o[p]? = some 128) ∧
      (∀ p, p < 2 * 2 → o[p]? = mid[p]?) :=
  ⟨by decide, transform_chroma_neutral binary32 0 ⟨true, false, false, 2, 2⟩
    [10, 20, 30, 40, 50, 60] [1, 2, 3, 4, 5, 6] (by decide) (by decide) (by decide)
    (by decide) (by decide)⟩

/-- C4: with `grayscale`, `halftone` and `histeq` all false the transform returns an output
buffer whose first `inmap.size` bytes are the input buffer, byte for byte; for an output
buffer of the size of the input, the output is the input. -/
theorem transform_passthrough {F : Type} (A : FloatOps F) (nanByte : Nat) (filter : Filter)
    (inmap outmap : List Nat) (hg : filter.grayscale = false) (hh : filter.halftone = false)
    (he : filter.histeq = false) (hsize : inmap.length ≤ outmap.length) :
    ∃ o, gst_image_processing_transform A nanByte filter inmap outmap = some o ∧
      o.length = outmap.length ∧ o.take inmap.length = inmap ∧
      (outmap.length = inmap.length → o = inmap) := by
  refine ⟨inmap ++ outmap.drop inmap.length, ?_, ?_, ?_, ?_⟩
  · simp [gst_image_processing_transform, luma_pass, chroma_pass, hg, hh, he,
      memcpy_spec outmap inmap hsize]
  · simp; omega
  · simp
  · intro heq
    simp [heq]

/-- A 2 by 2 frame of six bytes with no flag set. -/
theorem transform_passthrough_witness :
    [10, 20, 30, 40, 50, 60].length ≤ [1, 2, 3, 4, 5, 6].length ∧
    ∃ o, gst_image_processing_transform binary32 0 ⟨false, false, false, 2, 2⟩
        [10, 20, 30, 40, 50, 60] [1, 2, 3, 4, 5, 6] = some o ∧
      o.length = [1, 2, 3, 4, 5, 6].length ∧
      o.take [10, 20, 30, 40, 50, 60].length = [10, 20, 30, 40, 50, 60] ∧
      ([1, 2, 3, 4, 5, 6].length = [10, 20, 30, 40, 50, 60].length →
        o = [10, 20, 30, 40, 50, 60]) :=
  ⟨by decide, transform_passthrough binary32 0 ⟨false, false, false, 2, 2⟩
    [10, 20, 30, 40, 50, 60] [1, 2, 3, 4, 5, 6] rfl rfl rfl (by decide)⟩

/-- C5: on an I420 frame the transform returns, and the luma plane of its output is that of
`half_tone` (threshold 128, levels 255 and 0) whenever `halftone` is set, also when `histeq`
is set too; else that of `hist_equalization` when `histeq` is set; else the input luma, in
particular when only `grayscale` is set. -/
theorem transform_luma_dispatch {F : Type} (A : FloatOps F) (nanByte : Nat)
    (filter : Filter) (inmap outmap : List Nat)
    (hdiv : 4 ∣ filter.height * filter.width)
    (hsize : inmap.length = filter.height * filter.width * 3 / 2)
    (hosize : outmap.length = inmap.length) (hbytes : ∀ b ∈ inmap, b < 256) :
    ∃ o, gst_image_processing_transform A nanByte filter inmap outmap = some o ∧
      (filter.halftone = true →
        ∃ ht, half_tone A inmap outmap 128 255 0 filter.height filter.width = some ht ∧
          o.take (filter.height * filter.width) = ht.take (filter.height * filter.width)) ∧
      (filter.halftone = false → filter.histeq = true →
        ∃ eq, hist_equalization nanByte inmap outmap filter.height filter.width = some eq ∧
          o.take (filter.height * filter.width) = eq.take (filter.height * filter.width)) ∧
      (filter.halftone = false → filter.histeq = false →
        o.take (filter.height * filter.width) =
          inmap.take (filter.height * filter.width)) := by
  obtain ⟨mid, hmid, hmlen⟩ := luma_pass_total A nanByte filter inmap outmap
    (by omega) hosize hbytes
  have hoff : inmap.length * 2 / 3 = filter.height * filter.width := by omega
  have hchroma : ∃ o, chroma_pass filter inmap.length mid = some o ∧
      o.take (filter.height * filter.width) = mid.take (filter.height * filter.width) := by
    unfold chroma_pass
    split_ifs with hflag
    · obtain ⟨o, ho, -, -, -, -, htake⟩ :=
        memset_spec mid (inmap.length * 2 / 3) 128 (inmap.length / 3) (by omega)
      rw [hoff] at htake
      exact ⟨o, ho, htake⟩
    · exact ⟨mid, rfl, rfl⟩
  obtain ⟨o, ho, htake⟩ := hchroma
  refine ⟨o, by simp [gst_image_processing_transform, hmid, ho], ?_, ?_, ?_⟩
  · intro hh
    refine ⟨mid, ?_, htake⟩
    rw [← hmid]
    simp [luma_pass, hh]
  · intro hh he
    refine ⟨mid, ?_, htake⟩
    rw [← hmid]
    simp [luma_pass, hh, he]
  · intro hh he
    have hcopy : luma_pass A nanByte filter inmap outmap =
        some (inmap ++ outmap.drop inmap.length) := by
      simp only [luma_pass, hh, he, Bool.false_eq_true, if_false]
      exact memcpy_spec outmap inmap (by omega)
    rw [hcopy] at hmid
    have hm : mid = inmap ++ outmap.drop inmap.length := (Option.some.inj hmid).symm
    rw [htake, hm, List.take_append_of_le_length (by omega)]

/-- A 2 by 2 frame of six bytes with `halftone` and `histeq` both set. -/
theorem transform_luma_dispatch_witness :
    (4 ∣ 2 * 2 ∧ [10, 200, 30, 140, 50, 60].length = 2 * 2 * 3 / 2 ∧
      [1, 2, 3, 4, 5, 6].length = [10, 200, 30, 140, 50, 60].length ∧
      ∀ b ∈ [10, 200, 30, 140, 50, 60], b < 256) ∧
    ∃ o, gst_image_processing_transform binary32 0 ⟨false, true, true, 2, 2⟩
        [10, 200, 30, 140, 50, 60] [1, 2, 3, 4, 5, 6] = some o ∧
      (true = true →
        ∃ ht, half_tone binary32 [10, 200, 30, 140, 50, 60] [1, 2, 3, 4, 5, 6] 128 255 0 2 2
            = some ht ∧ o.take (2 * 2) = ht.take (2 * 2)) ∧
      (true = false → true = true →
        ∃ eq, hist_equalization 0 [10, 200, 30, 140, 50, 60] [1, 2, 3, 4, 5, 6] 2 2
            = some eq ∧ o.take (2 * 2) = eq.take (2 * 2)) ∧
      (true = false → true = false →
        o.take (2 * 2) = [10, 200, 30, 140, 50, 60].take (2 * 2)) :=
  ⟨by decide, transform_luma_dispatch binary32 0 ⟨false, true, true, 2, 2⟩
    [10, 200, 30, 140, 50, 60] [1, 2, 3, 4, 5, 6] (by decide) (by decide) (by decide)
    (by decide)⟩

/-! ## Bounds on binary32 results -/

theorem highBit_le (fuel : Nat) : ∀ n, n ≤ fuel → 1 ≤ n → 2 ^ highBit fuel n ≤ n := by
  induction fuel with
  | zero => intro n hn h1; omega
  | succ f ih =>
    intro n hn h1
    unfold highBit
    by_cases h2 : n < 2
    · rw [if_pos h2]; simpa using h1
    · rw [if_neg h2]
      have h := ih (n / 2) (by omega) (by omega)
      rw [pow_succ]
      omega

theorem grow_mono {a b : Nat} (h : a ≤ b) : grow a ≤ grow b := by
  unfold grow
  have := Nat.div_le_div_right (c := 8388608) h
  omega

/-- Rounding raises a magnitude by less than one part in `2 ^ 23`, plus one unit. -/
theorem round24_le (num den : Nat) : round24 num den ≤ grow (num / den) := by
  unfold round24 grow
  simp only []
  have hn : num / (den * 2 ^ (highBit (num / den) (num / den) - 23)) =
      num / den / 2 ^ (highBit (num / den) (num / den) - 23) :=
    (Nat.div_div_eq_div_mul num den _).symm
  have h1 := Nat.div_mul_le_self (num / den) (2 ^ (highBit (num / den) (num / den) - 23))
  have h2 : 2 ^ (highBit (num / den) (num / den) - 23) ≤ num / den / 8388608 + 1 := by
    by_cases hs : highBit (num / den) (num / den) - 23 = 0
    · rw [hs]; simp
    · have hfl : 1 ≤ num / den := by
        rcases Nat.eq_zero_or_pos (num / den) with h0 | h0
        · rw [h0] at hs; simp [highBit] at hs
        · exact h0
      have hb := highBit_le (num / den) (num / den) (le_refl _) hfl
      have hsplit : highBit (num / den) (num / den) =
          (highBit (num / den) (num / den) - 23) + 23 := by omega
      rw [hsplit, pow_add] at hb
      have h23 : (2 : Nat) ^ 23 = 8388608 := by norm_num
      rw [h23] at hb
      have := (Nat.le_div_iff_mul_le (by norm_num : 0 < 8388608)).2 hb
      omega
  rw [hn]
  split_ifs
  · rw [Nat.add_mul, Nat.one_mul]
    omega
  · omega

theorem magBound_mono {x : F32} {a b : Nat} (h : MagBound x a) (hab : a ≤ b) :
    MagBound x b := by
  obtain ⟨s, m, hx, hm⟩ := h
  exact ⟨s, m, hx, by omega⟩

theorem pack_bound (neg : Bool) (num den B : Nat) (hq : num / den ≤ B)
    (hB : grow B < 2 ^ 128 * 2 ^ 149) : MagBound (pack neg num den) (grow B) := by
  have h := Nat.le_trans (round24_le num den) (grow_mono hq)
  unfold pack
  rw [if_pos (by omega)]
  exact ⟨neg, _, rfl, h⟩

theorem add_bound {x y : F32} {a b : Nat} (hx : MagBound x a) (hy : MagBound y b)
    (hB : grow (a + b) < 2 ^ 128 * 2 ^ 149) : MagBound (F32.add x y) (grow (a + b)) := by
  obtain ⟨sa, ma, rfl, ha⟩ := hx
  obtain ⟨sb, mb, rfl, hb⟩ := hy
  simp only [F32.add]
  split_ifs
  · exact pack_bound sa (ma + mb) 1 (a + b) (by rw [Nat.div_one]; omega) hB
  · exact ⟨false, 0, rfl, Nat.zero_le _⟩
  · exact pack_bound sa (ma - mb) 1 (a + b) (by rw [Nat.div_one]; omega) hB
  · exact pack_bound sb (mb - ma) 1 (a + b) (by rw [Nat.div_one]; omega) hB

theorem neg_bound {x : F32} {a : Nat} (hx : MagBound x a) : MagBound (F32.neg x) a := by
  obtain ⟨sa, ma, rfl, ha⟩ := hx
  exact ⟨!sa, ma, rfl, ha⟩

theorem sub_bound {x y : F32} {a b : Nat} (hx : MagBound x a) (hy : MagBound y b)
    (hB : grow (a + b) < 2 ^ 128 * 2 ^ 149) : MagBound (F32.sub x y) (grow (a + b)) :=
  add_bound hx (neg_bound hy) hB

theorem mul_bound {x y : F32} {a b : Nat} (hx : MagBound x a) (hy : MagBound y b)
    (hB : grow (a * b / 2 ^ 149) < 2 ^ 128 * 2 ^ 149) :
    MagBound (F32.mul x y) (grow (a * b / 2 ^ 149)) := by
  obtain ⟨sa, ma, rfl, ha⟩ := hx
  obtain ⟨sb, mb, rfl, hb⟩ := hy
  simp only [F32.mul]
  exact pack_bound _ (ma * mb) (2 ^ 149) _
    (Nat.div_le_div_right (Nat.mul_le_mul ha hb)) hB

theorem ofInt_bound (z : Int) (k : Nat) (hz : z.natAbs ≤ k)
    (hB : grow (k * 2 ^ 149) < 2 ^ 128 * 2 ^ 149) :
    MagBound (F32.ofInt z) (grow (k * 2 ^ 149)) := by
  unfold F32.ofInt
  exact pack_bound _ _ 1 _ (by rw [Nat.div_one]; exact Nat.mul_le_mul_right _ hz) hB

/-! ## Rounded values are fixed by rounding -/

theorem highBit_lt (fuel : Nat) : ∀ n, n ≤ fuel → n < 2 ^ (highBit fuel n + 1) := by
  induction fuel with
  | zero => intro n hn; simp [highBit]; omega
  | succ f ih =>
    intro n hn
    unfold highBit
    by_cases h2 : n < 2
    · rw [if_pos h2]; simpa using h2
    · rw [if_neg h2]
      have h := ih (n / 2) (by omega)
      rw [pow_succ]
      omega

/-- A magnitude that is a multiple of the spacing at its own size is left as it is. -/
theorem round24_of_dvd (r : Nat) (h : 2 ^ (highBit r r - 23) ∣ r) : round24 r 1 = r := by
  unfold round24
  simp only [Nat.div_one, Nat.one_mul]
  have hpos : 0 < 2 ^ (highBit r r - 23) := Nat.pow_pos (by norm_num)
  have hmod : r % 2 ^ (highBit r r - 23) = 0 := Nat.mod_eq_zero_of_dvd h
  rw [hmod]
  have hcond : ¬ (2 ^ (highBit r r - 23) < 2 * 0 ∨
      (2 * 0 = 2 ^ (highBit r r - 23) ∧ r / 2 ^ (highBit r r - 23) % 2 = 1)) := by omega
  rw [if_neg hcond]
  exact Nat.div_mul_cancel h

/-- The spacing at the size of `k * 2 ^ s` divides it, when `k` fits a 24-bit significand
or is `2 ^ 24`. -/
theorem spacing_dvd (k s : Nat) (hk : k ≤ 2 ^ 24) :
    2 ^ (highBit (k * 2 ^ s) (k * 2 ^ s) - 23) ∣ k * 2 ^ s := by
  rcases Nat.eq_zero_or_pos k with h0 | h0
  · subst h0; simp
  · have hpos : 1 ≤ k * 2 ^ s := Nat.mul_pos h0 (Nat.pow_pos (by norm_num))
    have hle := highBit_le (k * 2 ^ s) (k * 2 ^ s) (le_refl _) hpos
    rcases Nat.lt_or_ge k (2 ^ 24) with hlt | hge
    · have hup : k * 2 ^ s < 2 ^ (s + 24) := by
        rw [pow_add, Nat.mul_comm (2 ^ s)]
        exact Nat.mul_lt_mul_of_pos_right hlt (Nat.pow_pos (by norm_num))
      have hb : highBit (k * 2 ^ s) (k * 2 ^ s) < s + 24 :=
        (Nat.pow_lt_pow_iff_right (by norm_num : 1 < 2)).1 (Nat.lt_of_le_of_lt hle hup)
      exact Dvd.dvd.mul_left (pow_dvd_pow 2 (by omega)) k
    · have hk24 : k = 2 ^ 24 := Nat.le_antisymm hk hge
      have hval : k * 2 ^ s = 2 ^ (s + 24) := by rw [hk24, pow_add, Nat.mul_comm]
      rw [hval] at hle ⊢
      have hb : highBit (2 ^ (s + 24)) (2 ^ (s + 24)) ≤ s + 24 :=
        (Nat.pow_le_pow_iff_right (by norm_num : 1 < 2)).1 hle
      exact pow_dvd_pow 2 (by omega)

/-- Rounding a rounded magnitude changes nothing. -/
theorem round24_idem (num den : Nat) : round24 (round24 num den) 1 = round24 num den := by
  apply round24_of_dvd
  have hn24 : num / (den * 2 ^ (highBit (num / den) (num / den) - 23)) < 2 ^ 24 := by
    rw [← Nat.div_div_eq_div_mul]
    apply (Nat.div_lt_iff_lt_mul (Nat.pow_pos (by norm_num))).2
    have hlt := highBit_lt (num / den) (num / den) (le_refl _)
    have hexp : highBit (num / den) (num / den) + 1 ≤
        24 + (highBit (num / den) (num / den) - 23) := by omega
    calc num / den < 2 ^ (highBit (num / den) (num / den) + 1) := hlt
      _ ≤ 2 ^ (24 + (highBit (num / den) (num / den) - 23)) :=
        Nat.pow_le_pow_right (by norm_num) hexp
      _ = 2 ^ 24 * 2 ^ (highBit (num / den) (num / den) - 23) := pow_add 2 _ _
  unfold round24
  simp only []
  split_ifs
  · exact spacing_dvd _ _ (by omega)
  · exact spacing_dvd _ _ (by omega)

/-- Adding a finite product to `+0.0` gives a value that compares equal to the product. -/
theorem add_zero_mul_eq (x y : F32) {B : Nat} (hxy : MagBound (F32.mul x y) B)
    (hB : B < 2 ^ 128 * 2 ^ 149) :
    F32.eq (F32.add (F32.finite false 0) (F32.mul x y)) (F32.mul x y) = true := by
  obtain ⟨s, r, hr, hle⟩ := hxy
  have hidem : round24 r 1 = r := by
    cases x with
    | finite sa a =>
      cases y with
      | finite sb b =>
        simp only [F32.mul, pack] at hr
        split_ifs at hr
        · injection hr with _ h2
          rw [← h2]
          exact round24_idem _ _
      | inf sb => simp only [F32.mul] at hr; split_ifs at hr
      | nan => simp [F32.mul] at hr
    | inf sa =>
      cases y with
      | finite sb b => simp only [F32.mul] at hr; split_ifs at hr
      | inf sb => simp [F32.mul] at hr
      | nan => simp [F32.mul] at hr
    | nan => simp [F32.mul] at hr
  rw [hr]
  have hpack : ∀ sg, pack sg r 1 = F32.finite sg r := by
    intro sg
    unfold pack
    rw [hidem, if_pos (by omega)]
  cases s
  · simp only [F32.add, if_true, Nat.zero_add, hpack, F32.eq]
    simp
  · simp only [F32.add, Bool.false_eq_true, if_false]
    by_cases h0 : 0 = r
    · subst h0; simp [F32.eq]
    · have hlt : ¬ r < 0 := by omega
      rw [if_neg h0, if_neg hlt, Nat.sub_zero, hpack]
      simp [F32.eq]

/-! ## The zero products and sums of `half_tone` in binary32 -/

theorem binary32_w01 : binary32.w01 = F32.finite false (13421773 * 2 ^ 122) := by decide

theorem binary32_mul_zero_zero :
    binary32.mul binary32.zero binary32.zero = binary32.zero := by decide

theorem binary32_mul_w02_zero :
    binary32.mul binary32.w02 binary32.zero = binary32.zero := by decide

theorem binary32_mul_w06_zero :
    binary32.mul binary32.w06 binary32.zero = binary32.zero := by decide

theorem binary32_mul_w01_zero :
    binary32.mul binary32.w01 binary32.zero = binary32.zero := by decide

theorem binary32_add_zero_zero :
    binary32.add binary32.zero binary32.zero = binary32.zero := by decide

/-- A product `0.0 * x` with `x` finite is a zero of the sign of `x`, and adding it to
`+0.0` gives `+0.0`. -/
theorem binary32_add_zero_mul (s : Bool) (m : Nat) :
    binary32.add binary32.zero (binary32.mul binary32.zero (F32.finite s m)) =
      binary32.zero := by
  show F32.add (F32.finite false 0) (F32.mul (F32.finite false 0) (F32.finite s m)) =
    F32.finite false 0
  simp only [F32.mul, Nat.zero_mul]
  cases s <;> decide

/-- In binary32 the sum at a pixel whose left neighbour holds a finite error `prev` is
`0.0 + 0.1 * prev`, in the last row as in the others. -/
theorem sumFrom_binary32 (last : Bool) {prev : F32} {B : Nat} (h : MagBound prev B) :
    sumFrom binary32 last prev =
      binary32.add binary32.zero (binary32.mul binary32.w01 prev) := by
  obtain ⟨s, m, rfl, -⟩ := h
  unfold sumFrom weighted
  cases last
  · simp only [Bool.false_eq_true, if_false, binary32_mul_zero_zero, binary32_mul_w02_zero,
      binary32_mul_w06_zero, binary32_mul_w01_zero, binary32_add_zero_zero]
  · simp only [if_true, binary32_mul_zero_zero, binary32_mul_w02_zero,
      binary32_mul_w06_zero, binary32_mul_w01_zero, binary32_add_zero_zero,
      binary32_add_zero_mul]

/-- A tenth of an error below 2048 is below 256. -/
theorem mul_w01_bound {e : F32} (he : MagBound e (2 ^ 160)) :
    MagBound (F32.mul binary32.w01 e) (2 ^ 157) := by
  have hw : MagBound binary32.w01 (13421773 * 2 ^ 122) :=
    ⟨false, _, binary32_w01, le_refl _⟩
  exact magBound_mono (mul_bound hw he (by decide)) (by decide)

/-- The errors of `half_tone` stay below 2048 in magnitude: from a left neighbour within
the bound, a sample and a threshold that are bytes give an error within the bound. -/
theorem settle_bound {e : F32} (px threshold : Nat) (he : MagBound e (2 ^ 160))
    (hpx : px < 256) (hthr : threshold < 256) :
    MagBound (settle binary32 threshold (binary32.add (binary32.ofInt (px : Int))
      (binary32.add binary32.zero (binary32.mul binary32.w01 e)))) (2 ^ 160) := by
  have h1 : MagBound (F32.mul binary32.w01 e) (2 ^ 157) := mul_w01_bound he
  have h0 : MagBound (F32.finite false 0) 0 := ⟨false, 0, rfl, le_refl _⟩
  have h2 : MagBound (F32.add (F32.finite false 0) (F32.mul binary32.w01 e)) (2 ^ 158) :=
    magBound_mono (add_bound h0 h1 (by decide)) (by decide)
  have h3 : MagBound (F32.ofInt (px : Int)) (2 ^ 157) :=
    magBound_mono (ofInt_bound (px : Int) 255 (by omega) (by decide)) (by decide)
  have h4 : MagBound (F32.add (F32.ofInt (px : Int))
      (F32.add (F32.finite false 0) (F32.mul binary32.w01 e))) (2 ^ 159) :=
    magBound_mono (add_bound h3 h2 (by decide)) (by decide)
  have h5 : MagBound (F32.ofInt ((threshold : Int) * 2)) (2 ^ 158) :=
    magBound_mono (ofInt_bound ((threshold : Int) * 2) 510 (by omega) (by decide))
      (by decide)
  have h6 : MagBound (F32.sub (F32.add (F32.ofInt (px : Int))
      (F32.add (F32.finite false 0) (F32.mul binary32.w01 e)))
      (F32.ofInt ((threshold : Int) * 2))) (2 ^ 160) :=
    magBound_mono (sub_bound h4 h5 (by decide)) (by decide)
  unfold settle
  split_ifs
  · exact h6
  · exact magBound_mono h4 (by decide)

/-! ## Rows of `half_tone` do not interact -/

theorem pixel_lt {in_image : List Nat} (hbytes : ∀ b ∈ in_image, b < 256) (cols r c : Nat) :
    pixel in_image cols r c < 256 := by
  unfold pixel
  cases h : in_image[r * cols + c]? with
  | none => simp
  | some v => simpa using sample_lt hbytes h

/-- The error to the left of every column of a row of bytes is finite, below 2048 in
magnitude. -/
theorem prevErr_bound (px : Nat → Nat) (threshold : Nat) (last : Bool)
    (hpx : ∀ c, px c < 256) (hthr : threshold < 256) (n : Nat) :
    MagBound (prevErr binary32 px threshold last n) (2 ^ 160) := by
  induction n with
  | zero => exact ⟨false, 0, rfl, Nat.zero_le _⟩
  | succ k ih =>
    simp only [prevErr]
    rw [sumFrom_binary32 last ih]
    exact settle_bound (px k) threshold ih (hpx k) hthr

/-- The errors of a row depend on the samples of the row alone: not on whether the row is
the last one, nor on samples of other rows. -/
theorem prevErr_row (px px1 : Nat → Nat) (threshold : Nat) (last last1 : Bool)
    (hpx : ∀ c, px c < 256) (hthr : threshold < 256) (n : Nat)
    (h : ∀ c, c < n → px c = px1 c) :
    prevErr binary32 px threshold last n = prevErr binary32 px1 threshold last1 n := by
  induction n with
  | zero => rfl
  | succ k ih =>
    have e := ih (fun c hc => h c (Nat.lt_succ_of_lt hc))
    simp only [prevErr]
    rw [← e, sumFrom_binary32 last (prevErr_bound px threshold last hpx hthr k),
      sumFrom_binary32 last1 (prevErr_bound px threshold last hpx hthr k),
      h k (Nat.lt_succ_self k)]

/-- The samples of the one-row plane cut out of row `m`. -/
theorem pixel_row (in_image : List Nat) (cols m c : Nat) (hc : c < cols) :
    pixel ((in_image.drop (m * cols)).take cols) cols 0 c = pixel in_image cols m c := by
  unfold pixel
  rw [List.getElem?_take, List.getElem?_drop]
  simp [hc]

theorem workAt_row (in_image : List Nat) (threshold rows cols m c : Nat) (hc : c < cols)
    (hbytes : ∀ b ∈ in_image, b < 256) (hthr : threshold < 256) :
    workAt binary32 ((in_image.drop (m * cols)).take cols) threshold 1 cols 0 c =
      workAt binary32 in_image threshold rows cols m c := by
  have hpx : ∀ d, pixel in_image cols m d < 256 := fun d => pixel_lt hbytes cols m d
  have hrow := prevErr_row (pixel in_image cols m)
    (pixel ((in_image.drop (m * cols)).take cols) cols 0) threshold
    (decide (m + 1 = rows)) (decide (0 + 1 = 1)) hpx hthr c
    (fun d hd => (pixel_row in_image cols m d (by omega)).symm)
  unfold workAt sumAt
  rw [pixel_row in_image cols m c hc, ← hrow,
    sumFrom_binary32 _ (prevErr_bound _ threshold _ hpx hthr c),
    sumFrom_binary32 _ (prevErr_bound _ threshold _ hpx hthr c)]

/-- C10: in the binary32 arithmetic of the code, for a plane of bytes and a byte threshold,
row `m` of the output of `half_tone` is the output of `half_tone` on the one-row plane made
of input row `m` alone; in the run, the propagated error `ep[m][n]` is `0.0` in column 0 and
`0.0 + 0.1 * eg[m][n - 1]` in the other columns, a value that compares equal to
`0.1 * eg[m][n - 1]`: the error of the left neighbour is the only contribution, and no error
passes from one row to another. -/
theorem half_tone_rows_independent (in_image out_image out_row : List Nat)
    (threshold one zero rows cols m : Nat)
    (hm : m < rows) (hin : rows * cols ≤ in_image.length)
    (hout : rows * cols ≤ out_image.length) (hrow : cols ≤ out_row.length)
    (hbytes : ∀ b ∈ in_image, b < 256) (hthr : threshold < 256) :
    ∃ o o1 s, half_tone binary32 in_image out_image threshold one zero rows cols = some o ∧
      half_tone binary32 ((in_image.drop (m * cols)).take cols) out_row threshold one zero
        1 cols = some o1 ∧
      (o.drop (m * cols)).take cols = o1.take cols ∧
      half_tone_run binary32 in_image out_image threshold one zero rows cols = some s ∧
      (∀ n, n < cols → ∃ e p, read2 s.eg m (n - 1) = some e ∧ read2 s.ep m n = some p ∧
        p = (if n = 0 then binary32.zero
          else binary32.add binary32.zero (binary32.mul binary32.w01 e)) ∧
        (0 < n → F32.eq p (binary32.mul binary32.w01 e) = true)) := by
  have hrowlen : (m + 1) * cols ≤ rows * cols := Nat.mul_le_mul_right cols hm
  have hsucc : (m + 1) * cols = m * cols + cols := by ring
  have hpx : ∀ d, pixel in_image cols m d < 256 := fun d => pixel_lt hbytes cols m d
  obtain ⟨s, hs, -, -, h3, h4, h5, -⟩ :=
    half_tone_run_spec binary32 in_image out_image threshold one zero rows cols hin hout
  obtain ⟨o1, ho1, -, hpix1, -⟩ :=
    half_tone_spec binary32 ((in_image.drop (m * cols)).take cols) out_row threshold one
      zero 1 cols (by simp; omega) (by omega)
  refine ⟨s.out_image, o1, s, by simp [half_tone, hs], ho1, ?_, hs, ?_⟩
  · apply List.ext_getElem?
    intro c
    rw [List.getElem?_take, List.getElem?_take, List.getElem?_drop]
    by_cases hc : c < cols
    · rw [if_pos hc, if_pos hc, (h5 m c hm hc (Or.inl hm)).2]
      have h1 := hpix1 0 c (by omega) hc
      simp only [Nat.zero_mul, Nat.zero_add] at h1
      rw [h1]
      unfold outAt
      rw [workAt_row in_image threshold rows cols m c hc hbytes hthr]
    · rw [if_neg hc, if_neg hc]
  · intro n hn
    have hep := (h5 m n hm hn (Or.inl hm)).1
    have heg := h4 m (n - 1) hm (by omega)
    rw [if_pos (Or.inl hm)] at heg
    refine ⟨_, _, heg, hep, ?_, ?_⟩
    · unfold sumAt
      rw [sumFrom_binary32 _ (prevErr_bound _ threshold _ hpx hthr n)]
      cases n with
      | zero => simp [prevErr, binary32_mul_w01_zero, binary32_add_zero_zero]
      | succ k => simp [prevErr_succ]
    · intro hn0
      unfold sumAt
      rw [sumFrom_binary32 _ (prevErr_bound _ threshold _ hpx hthr n)]
      obtain ⟨k, rfl⟩ : ∃ k, n = k + 1 := ⟨n - 1, by omega⟩
      simp only [Nat.add_sub_cancel, prevErr_succ]
      exact add_zero_mul_eq _ _
        (mul_w01_bound (prevErr_bound _ threshold _ hpx hthr (k + 1))) (by decide)

/-- Row 1 of a 3 by 2 plane. -/
theorem half_tone_rows_independent_witness :
    (1 < 3 ∧ 3 * 2 ≤ [200, 100, 50, 130, 255, 0].length ∧
      3 * 2 ≤ [7, 7, 7, 7, 7, 7].length ∧ 2 ≤ [9, 9].length ∧
      (∀ b ∈ [200, 100, 50, 130, 255, 0], b < 256) ∧ 128 < 256) ∧
    ∃ o o1 s, half_tone binary32 [200, 100, 50, 130, 255, 0] [7, 7, 7, 7, 7, 7] 128 255 0
        3 2 = some o ∧
      half_tone binary32 (([200, 100, 50, 130, 255, 0].drop (1 * 2)).take 2) [9, 9] 128 255
        0 1 2 = some o1 ∧
      (o.drop (1 * 2)).take 2 = o1.take 2 ∧
      half_tone_run binary32 [200, 100, 50, 130, 255, 0] [7, 7, 7, 7, 7, 7] 128 255 0 3 2
        = some s ∧
      (∀ n, n < 2 → ∃ e p, read2 s.eg 1 (n - 1) = some e ∧ read2 s.ep 1 n = some p ∧
        p = (if n = 0 then binary32.zero
          else binary32.add binary32.zero (binary32.mul binary32.w01 e)) ∧
        (0 < n → F32.eq p (binary32.mul binary32.w01 e) = true)) :=
  ⟨by decide, half_tone_rows_independent [200, 100, 50, 130, 255, 0]
    [7, 7, 7, 7, 7, 7] [9, 9] 128 255 0 3 2 1 (by decide) (by decide) (by decide)
    (by decide) (by decide) (by decide)⟩

/-! ## The histogram of a uniform plane -/

theorem set_replicate_self {α : Type} (k i : Nat) (a : α) :
    (List.replicate k a).set i a = List.replicate k a := by
  apply List.ext_getElem?
  intro j
  rw [List.getElem?_set, List.getElem?_replicate, List.length_replicate]
  by_cases hij : i = j
  · subst hij
    by_cases hi : i < k
    · rw [if_pos rfl, if_pos hi]
    · rw [if_pos rfl, if_neg hi]
  · rw [if_neg hij]

theorem getElem?_set_replicate {α : Type} (k i : Nat) (a b : α) (hi : i < k) :
    ((List.replicate k a).set i b)[i]? = some b := by
  rw [List.getElem?_set, if_pos rfl, List.length_replicate, if_pos hi]

/-- On a plane whose samples all equal `v` the `guchar` counter of `v` ends at the number of
pixels modulo 256, and every other counter at 0. -/
theorem calc_histogram_uniform (v rows cols : Nat) (hv : v < 256) :
    calc_histogram (List.replicate (rows * cols) v) rows cols =
      some ((List.replicate 256 0).set v (rows * cols % 256)) := by
  unfold calc_histogram
  obtain ⟨h, hh, hP⟩ := forLoop_inv
    (fun m (h : List Nat) => h = (List.replicate 256 0).set v (m * cols % 256)) rows
    (fun m h => forLoop cols (fun n histogram => do
      let v1 ← (List.replicate (rows * cols) v)[m * cols + n]?
      let count ← histogram[v1]?
      pure (histogram.set v1 ((count + 1) % 256))) h) (List.replicate 256 0)
    (by
      show List.replicate 256 0 = (List.replicate 256 0).set v (0 * cols % 256)
      rw [Nat.zero_mul, Nat.zero_mod, set_replicate_self])
    (by
      intro m h hm hP
      obtain ⟨h1, hh1, hP1⟩ := forLoop_inv
        (fun n (h : List Nat) => h = (List.replicate 256 0).set v ((m * cols + n) % 256))
        cols (fun n histogram => do
          let v1 ← (List.replicate (rows * cols) v)[m * cols + n]?
          let count ← histogram[v1]?
          pure (histogram.set v1 ((count + 1) % 256))) h
        (by
          show h = (List.replicate 256 0).set v ((m * cols + 0) % 256)
          rw [Nat.add_zero]; exact hP)
        (by
          intro n t hn ht
          have hidx := index_lt hm hn
          have hread : (List.replicate (rows * cols) v)[m * cols + n]? = some v := by
            rw [List.getElem?_replicate, if_pos hidx]
          have hcount : t[v]? = some ((m * cols + n) % 256) := by
            rw [ht]; exact getElem?_set_replicate 256 v 0 _ hv
          refine ⟨t.set v (((m * cols + n) % 256 + 1) % 256), ?_, ?_⟩
          · simp only [hread, hcount, Option.bind_eq_bind, Option.some_bind, Option.pure_def]
          · rw [ht, List.set_set]
            congr 1
            omega)
      refine ⟨h1, hh1, ?_⟩
      rw [hP1]
      congr 2
      ring)
  rw [hh, hP]

/-- The running sums of an all-zero histogram are all zero. -/
theorem calc_histogram_sum_zero :
    calc_histogram_sum (List.replicate 256 0) = some (0, List.replicate 256 0) := by
  unfold calc_histogram_sum
  obtain ⟨st, hst, hP⟩ := forLoop_inv
    (fun _ (st : Nat × List Nat) => st = (0, List.replicate 256 0)) 256
    (fun m st => do
      let hm ← (List.replicate 256 0)[m]?
      let sum := st.1 + hm
      if m < st.2.length then pure (sum, st.2.set m sum) else none) (0, List.replicate 256 0)
    rfl
    (by
      intro m st hm hst
      have hread : (List.replicate 256 0)[m]? = some 0 := by
        rw [List.getElem?_replicate, if_pos hm]
      refine ⟨(0, List.replicate 256 0), ?_, rfl⟩
      subst hst
      have hlen : m < (List.replicate 256 0).length := by
        rw [List.length_replicate]; exact hm
      simp only [hread, Option.bind_eq_bind, Option.some_bind, Nat.add_zero, if_pos hlen,
        Option.pure_def, set_replicate_self])
  rw [hst, hP]

/-- On a uniform plane whose number of pixels is a multiple of 256 every counter of the
histogram has wrapped to 0, and so has the total `histogram_sum[255]`. -/
theorem uniform_total_zero (v rows cols : Nat) (hv : v < 256) (hdiv : 256 ∣ rows * cols) :
    calc_histogram (List.replicate (rows * cols) v) rows cols = some (List.replicate 256 0) ∧
    (calc_histogram (List.replicate (rows * cols) v) rows cols).bind calc_histogram_sum =
      some (0, List.replicate 256 0) := by
  have hmod : rows * cols % 256 = 0 := Nat.mod_eq_zero_of_dvd hdiv
  have hhist : calc_histogram (List.replicate (rows * cols) v) rows cols =
      some (List.replicate 256 0) := by
    rw [calc_histogram_uniform v rows cols hv, hmod, set_replicate_self]
  exact ⟨hhist, by rw [hhist, Option.some_bind, calc_histogram_sum_zero]⟩

/-- On such a plane the scale constant is not finite, and every pixel of the plane is stored
as the byte of a non-finite value. -/
theorem hist_equalization_uniform (nanByte v rows cols : Nat) (out_image : List Nat)
    (hv : v < 256) (hdiv : 256 ∣ rows * cols) (hout : rows * cols ≤ out_image.length) :
    ∃ o, hist_equalization nanByte (List.replicate (rows * cols) v) out_image rows cols
        = some o ∧ ∀ p, p < rows * cols → o[p]? = some nanByte := by
  have hhist := (uniform_total_zero v rows cols hv hdiv).1
  have h255 : (List.replicate 256 0)[255]? = some 0 := by
    rw [List.getElem?_replicate, if_pos (by omega)]
  have hvz : (List.replicate 256 0)[v]? = some 0 := by
    rw [List.getElem?_replicate, if_pos hv]
  obtain ⟨o, ho, hP⟩ := forLoop_inv
    (fun m (o : List Nat) => o.length = out_image.length ∧
      ∀ p, p < m * cols → o[p]? = some nanByte) rows
    (fun m o => forLoop cols (fun n out => do
      let v1 ← (List.replicate (rows * cols) v)[m * cols + n]?
      let count ← (List.replicate 256 0)[v1]?
      writeByte out (m * cols + n)
        (store_guchar nanByte (scaled count (scale_constant 0)))) o) out_image
    ⟨rfl, by intro p hp; simp at hp⟩
    (by
      intro m o hm hP
      obtain ⟨o1, ho1, hP1⟩ := forLoop_inv
        (fun n (o : List Nat) => o.length = out_image.length ∧
          ∀ p, p < m * cols + n → o[p]? = some nanByte) cols
        (fun n out => do
          let v1 ← (List.replicate (rows * cols) v)[m * cols + n]?
          let count ← (List.replicate 256 0)[v1]?
          writeByte out (m * cols + n)
            (store_guchar nanByte (scaled count (scale_constant 0)))) o
        ⟨hP.1, by intro p hp; exact hP.2 p (by omega)⟩
        (by
          intro n t hn ht
          have hidx := index_lt hm hn
          have hread : (List.replicate (rows * cols) v)[m * cols + n]? = some v := by
            rw [List.getElem?_replicate, if_pos hidx]
          have hw : m * cols + n < t.length := by rw [ht.1]; omega
          refine ⟨t.set (m * cols + n) nanByte, ?_, ?_, ?_⟩
          · simp only [hread, hvz, Option.bind_eq_bind, Option.some_bind, writeByte, if_pos hw]
            rfl
          · rw [List.length_set, ht.1]
          · intro p hp
            rw [List.getElem?_set]
            by_cases hpe : m * cols + n = p
            · rw [if_pos hpe, if_pos hw]
            · rw [if_neg hpe]
              exact ht.2 p (by omega))
      refine ⟨o1, ho1, hP1.1, ?_⟩
      intro p hp
      exact hP1.2 p (by
        have : (m + 1) * cols = m * cols + cols := by ring
        omega))
  refine ⟨o, ?_, hP.2⟩
  simp only [hist_equalization, hhist, calc_histogram_sum_zero, h255, Option.bind_eq_bind,
    Option.some_bind]
  exact ho

/-! ## Where the code departs from the specification -/

/-- C2: on the one-row plane with samples 0 and 255 the darker pixel is stored as 128 and
the brighter one as 0: the product for the brightest sample is exactly 256, whose low eight
bits are 0, so the remapping is not monotonic. -/
theorem hist_equalization_order_reversed :
    ∀ nanByte, hist_equalization nanByte [0, 255] [0, 0] 1 2 = some [128, 0] := by
  intro nanByte
  rfl

/-- C6: on a plane of one pixel the pixel, which has the largest intensity present, is
stored as 0 and not as 255: the product is exactly 256 and the store does not clamp it. -/
theorem hist_equalization_brightest_wraps :
    ∀ nanByte, hist_equalization nanByte [7] [0] 1 1 = some [0] := by
  intro nanByte
  rfl

/-- C7: on the 640 by 480 plane, and on the 16 by 16 plane, with every pixel 200 the
`guchar` counter of 200 has wrapped to 0, the total `histogram_sum[255]` is 0 and the scale
constant `256.f / 0` is not finite. -/
theorem histogram_total_zero_on_uniform_frame :
    (calc_histogram (List.replicate (480 * 640) 200) 480 640).bind calc_histogram_sum =
      some (0, List.replicate 256 0) ∧
    (calc_histogram (List.replicate (16 * 16) 200) 16 16).bind calc_histogram_sum =
      some (0, List.replicate 256 0) ∧
    (List.replicate 256 0)[255]? = some 0 ∧ scale_constant 0 = none :=
  ⟨(uniform_total_zero 200 480 640 (by decide) (by decide)).2,
   (uniform_total_zero 200 16 16 (by decide) (by decide)).2,
   by rw [List.getElem?_replicate, if_pos (by decide)], rfl⟩

/-- C9: at the interior pixel `(1, 1)` of a 3 by 3 plane the kernel entry `c[0][1] = 0.2`
samples `eg[2][1]`, in the row below, and `c[1][0] = 0.6` samples `eg[1][2]`, to the right:
two positions sampled with a non-zero weight that are not yet visited. -/
theorem half_tone_samples_unvisited :
    (read2 (kernel binary32) 0 1 = some binary32.w02 ∧ binary32.w02 ≠ binary32.zero ∧
      sampleRow 3 1 0 = 2 ∧ sampleCol 3 1 1 = 1 ∧
      ¬ (sampleRow 3 1 0 = 1 - 1 ∨ (sampleRow 3 1 0 = 1 ∧ sampleCol 3 1 1 < 1))) ∧
    (read2 (kernel binary32) 1 0 = some binary32.w06 ∧ binary32.w06 ≠ binary32.zero ∧
      sampleRow 3 1 1 = 1 ∧ sampleCol 3 1 0 = 2 ∧
      ¬ (sampleRow 3 1 1 = 1 - 1 ∨ (sampleRow 3 1 1 = 1 ∧ sampleCol 3 1 0 < 1))) :=
  ⟨⟨rfl, by decide, by decide, by decide, by decide⟩,
   ⟨rfl, by decide, by decide, by decide, by decide⟩⟩

end ImageProcessing
